import Mathlib

set_option maxRecDepth 8192

/-!
Verification development for the hydro/legion archetype ECS core.

The definitions below are a shallow embedding of the Rust sources
(src/src/lib.rs, src/src/query.rs, src/src/resource.rs, src/src/system.rs).
Machine integers (`EntityIndex = u16`, `EntityVersion = Wrapping<u16>`,
`ArchetypeID`/`ChunkID`/`ComponentID = u16`) are modelled as `Nat`; every
arithmetic step that the source performs with wrapping semantics or with a
truncating `as` cast is made explicit with `% 65536`.  The `storage.rs` and
`borrows.rs` modules are declared by lib.rs but are not present under src/;
the definitions that stand in for them are marked `Modelled from the spec:`
and follow the specification text (spec.md sections 3, 4.2, 4.4, 5).
-/

namespace Hydro

/-- Entity handle (src/src/lib.rs, `struct Entity`): a pair of a `u16` index
and a `u16` wrapping version.  Both components are naturals kept below
65536 by the operations that produce them. -/
structure Entity where
  index : Nat
  version : Nat
deriving DecidableEq

/-- EntityBlock (src/src/lib.rs): identifier range starting at `start` of
capacity `len`, with one stored version per initialised slot and a free list
of indices available for reallocation.  The Rust fields are `Vec`s used as
stacks (push/pop at the end); here the head of each list is the top of the
stack. -/
structure EntityBlock where
  start : Nat
  len : Nat
  versions : List Nat
  free : List Nat
deriving DecidableEq

namespace EntityBlock

/-- `EntityBlock::is_alive`: answers only when the index falls inside the
block's initialised range; compares the stored version with the handle's.
The source computes `index - self.start` with `u16` subtraction after
checking `entity.index >= self.start`, so plain `Nat` subtraction agrees. -/
def isAlive (b : EntityBlock) (e : Entity) : Option Bool :=
  if b.start ≤ e.index then
    (b.versions.get? (e.index - b.start)).map (fun v => v == e.version)
  else none

/-- `EntityBlock::allocate`: pop the free list if possible (reissuing the
stored version), otherwise initialise the next tail slot with version 1.
The source indexes `self.versions[i]` for a popped free index; in reachable
states the index is always initialised, and `getD _ 0` stands in for the
panicking access.  The tail index is a `u16` sum in the source. -/
def allocate (b : EntityBlock) : Option (Entity × EntityBlock) :=
  match b.free with
  | i :: rest => some (⟨i, b.versions.getD (i - b.start) 0⟩, { b with free := rest })
  | [] =>
    if b.versions.length < b.len then
      some (⟨(b.start + b.versions.length) % 65536, 1⟩,
            { b with versions := b.versions ++ [1] })
    else none

/-- `EntityBlock::free`: whenever `is_alive` answers (i.e. the index lies in
the initialised range), the stored version is bumped (wrapping) and the index
is pushed onto the free list, and the old aliveness answer is returned ---
even when the versions did not match. -/
def freeEntity (b : EntityBlock) (e : Entity) : Option (Bool × EntityBlock) :=
  match b.isAlive e with
  | some alive =>
    some (alive,
      { b with
        versions := b.versions.set (e.index - b.start)
          ((b.versions.getD (e.index - b.start) 0 + 1) % 65536),
        free := e.index :: b.free })
  | none => none

end EntityBlock

/-- BlockAllocator (src/src/lib.rs): monotone counter of allocated indices
plus a free list of returned blocks.  `BLOCK_SIZE = 1024`.  A fresh block's
start is `self.allocated as EntityIndex`, a truncating cast to `u16`. -/
structure BlockAllocator where
  allocated : Nat
  free : List EntityBlock
deriving DecidableEq

/-- `BlockAllocator::allocate`. -/
def BlockAllocator.allocate (a : BlockAllocator) : EntityBlock × BlockAllocator :=
  match a.free with
  | b :: rest => (b, { a with free := rest })
  | [] => (⟨a.allocated % 65536, 1024, [], []⟩, { a with allocated := a.allocated + 1024 })

/-- EntityAllocator (src/src/lib.rs): the blocks leased from the shared
BlockAllocator plus the allocation buffer of entities created by the current
insert.  The `Arc<Mutex<BlockAllocator>>` handle is passed explicitly to the
operations that use it. -/
structure EntityAllocator where
  blocks : List EntityBlock
  entityBuffer : List Entity
deriving DecidableEq

/-- The reverse scan of `EntityAllocator::create_entity`
(`blocks.iter_mut().rev().filter_map(|b| b.allocate()).nth(0)`): the last
block that can allocate does so; blocks that fail to allocate are unchanged. -/
def allocFromBlocks : List EntityBlock → Option (Entity × List EntityBlock)
  | [] => none
  | b :: bs =>
    match allocFromBlocks bs with
    | some (e, bs2) => some (e, b :: bs2)
    | none =>
      match b.allocate with
      | some (e, b2) => some (e, b2 :: bs)
      | none => none

/-- The forward scan of `EntityAllocator::is_alive`
(`blocks.iter().filter_map(|b| b.is_alive(entity)).nth(0)`). -/
def aliveFromBlocks : List EntityBlock → Entity → Option Bool
  | [], _ => none
  | b :: bs, e =>
    match b.isAlive e with
    | some r => some r
    | none => aliveFromBlocks bs e

/-- The forward scan of `EntityAllocator::delete_entity`
(`blocks.iter_mut().filter_map(|b| b.free(entity)).nth(0)`); only the first
block whose `free` answers is mutated. -/
def deleteFromBlocks : List EntityBlock → Entity → Bool × List EntityBlock
  | [], _ => (false, [])
  | b :: bs, e =>
    match b.freeEntity e with
    | some (alive, b2) => (alive, b2 :: bs)
    | none =>
      let r := deleteFromBlocks bs e
      (r.1, b :: r.2)

/-- `EntityAllocator::is_alive`. -/
def EntityAllocator.isAlive (a : EntityAllocator) (e : Entity) : Bool :=
  (aliveFromBlocks a.blocks e).getD false

/-- `EntityAllocator::create_entity`: try the owned blocks in reverse order;
otherwise lease a block from the shared allocator (`blocks.push` appends at
the end) and take its first slot.  The source unwraps the allocation from
the leased block; `none` models the panic on a leased block with no room. -/
def EntityAllocator.createEntity (a : EntityAllocator) (shared : BlockAllocator) :
    Option (Entity × EntityAllocator × BlockAllocator) :=
  match allocFromBlocks a.blocks with
  | some (e, blocks2) =>
    some (e, { blocks := blocks2, entityBuffer := a.entityBuffer ++ [e] }, shared)
  | none =>
    match (shared.allocate).1.allocate with
    | some (e, b2) =>
      some (e, { blocks := a.blocks ++ [b2], entityBuffer := a.entityBuffer ++ [e] },
            (shared.allocate).2)
    | none => none

/-- `EntityAllocator::delete_entity`. -/
def EntityAllocator.deleteEntity (a : EntityAllocator) (e : Entity) :
    Bool × EntityAllocator :=
  let r := deleteFromBlocks a.blocks e
  (r.1, { a with blocks := r.2 })

/-- The scenario of spec S3 run on a fresh allocator pair: create `e`,
delete it, create `f`; report whether `f` reuses the index with a different
version and the final aliveness of both handles.  Returns
`(f.index == e.index, f.version == e.version, is_alive e, is_alive f)`. -/
def versionReuseChecks : Option (Bool × Bool × Bool × Bool) :=
  (EntityAllocator.createEntity ⟨[], []⟩ ⟨0, []⟩).bind fun r1 =>
    let e := r1.1
    let d := r1.2.1.deleteEntity e
    (d.2.createEntity r1.2.2).map fun r2 =>
      let f := r2.1
      (f.index == e.index, f.version == e.version, r2.2.1.isAlive e, r2.2.1.isAlive f)

/-- C6: on a fresh EntityAllocator, allocate e, delete e, allocate f; then
f.index = e.index, f.version ≠ e.version, e is no longer alive and f is
alive.  The delete is observed to return true and the two creations succeed
(the second reuses the freed slot). -/
theorem create_delete_create_reuses_index : versionReuseChecks = some (true, false, false, true) := by
  decide

/-- First stage of the C3 counterexample: the allocator owning one block
with a single initialised slot of stored version 1 (exactly the state after
one creation on a fresh allocator). -/
def c3Alloc : EntityAllocator := ⟨[⟨0, 1024, [1], []⟩], []⟩

/-- C3 counterexample: deleting the stale handle (0, 5) from `c3Alloc`
returns false (the handle was not alive), yet the allocator state changes:
the stored version of slot 0 is bumped to 2 and index 0 is pushed onto the
free list.  This falsifies both the claim that a slot is freed only when the
stored version matches and the claim that a false return leaves the state
unchanged. -/
theorem delete_dead_mutates_state :
    (c3Alloc.deleteEntity ⟨0, 5⟩).1 = false ∧
    (c3Alloc.deleteEntity ⟨0, 5⟩).2 = ⟨[⟨0, 1024, [2], [0]⟩], []⟩ ∧
    (c3Alloc.deleteEntity ⟨0, 5⟩).2 ≠ c3Alloc := by
  decide

/-- Whether the block's initialised range covers index `i`; this is exactly
the condition under which `EntityBlock::is_alive` (and hence
`EntityBlock::free`) answers. -/
def EntityBlock.covers (b : EntityBlock) (i : Nat) : Bool :=
  b.start ≤ i && i - b.start < b.versions.length

/-- What `EntityBlock::free` does to the block state when it answers: bump
the stored version of the slot (wrapping) and push the index. -/
def EntityBlock.bumpPush (b : EntityBlock) (i : Nat) : EntityBlock :=
  { b with
    versions := b.versions.set (i - b.start) ((b.versions.getD (i - b.start) 0 + 1) % 65536),
    free := i :: b.free }

/-- The state effect of `delete_entity` described directly: the first block
covering the index is freed unconditionally; if no block covers it the list
is unchanged. -/
def bumpPushFirstCovering : List EntityBlock → Nat → List EntityBlock
  | [], _ => []
  | b :: bs, i =>
    if b.covers i then b.bumpPush i :: bs
    else b :: bumpPushFirstCovering bs i

theorem isAlive_answers_iff_covers (b : EntityBlock) (e : Entity) :
    (b.isAlive e).isSome = b.covers e.index := by
  unfold EntityBlock.isAlive EntityBlock.covers
  by_cases h : b.start ≤ e.index
  · rw [if_pos h, Option.isSome_map']
    by_cases h2 : e.index - b.start < b.versions.length
    · simp [List.get?_eq_get h2, h, h2]
    · rw [List.get?_eq_none.mpr (Nat.le_of_not_lt h2)]
      simp [h, h2]
  · simp [h]

theorem freeEntity_eq (b : EntityBlock) (e : Entity) :
    b.freeEntity e = (b.isAlive e).map (fun alive => (alive, b.bumpPush e.index)) := by
  unfold EntityBlock.freeEntity EntityBlock.bumpPush
  rcases h : b.isAlive e with _ | alive <;> simp [h]

theorem deleteFromBlocks_eq (e : Entity) : ∀ bs : List EntityBlock,
    deleteFromBlocks bs e =
      ((aliveFromBlocks bs e).getD false, bumpPushFirstCovering bs e.index) := by
  intro bs
  induction bs with
  | nil => rfl
  | cons b bs ih =>
    unfold deleteFromBlocks aliveFromBlocks bumpPushFirstCovering
    rw [freeEntity_eq b e]
    rcases h : b.isAlive e with _ | alive
    · have hc : b.covers e.index = false := by
        have := isAlive_answers_iff_covers b e
        rw [h] at this
        simpa using this.symm
      simp [hc, ih]
    · have hc : b.covers e.index = true := by
        have := isAlive_answers_iff_covers b e
        rw [h] at this
        simpa using this.symm
      simp [hc]

/-- C3 amended, allocator level: `delete_entity` returns exactly the
aliveness verdict of the first block that covers the index (false when no
block covers it), and its state effect is to bump-and-push the first
covering block unconditionally --- whether or not the versions matched. -/
theorem delete_entity_characterization (a : EntityAllocator) (e : Entity) :
    a.deleteEntity e =
      ((aliveFromBlocks a.blocks e).getD false,
       ⟨bumpPushFirstCovering a.blocks e.index, a.entityBuffer⟩) := by
  unfold EntityAllocator.deleteEntity
  simp [deleteFromBlocks_eq e a.blocks]

/-- Operations available on a pair of EntityAllocators sharing one
BlockAllocator (the setting of the cross-allocator disjointness property):
create or delete an entity through either allocator.  Blocks return to the
shared allocator only when an EntityAllocator is dropped, which is not an
operation of this interface. -/
inductive AllocOp where
  | createA
  | createB
  | deleteA (e : Entity)
  | deleteB (e : Entity)

/-- A shared BlockAllocator together with the two EntityAllocators leasing
from it. -/
structure TwoAllocState where
  shared : BlockAllocator
  allocA : EntityAllocator
  allocB : EntityAllocator
deriving DecidableEq

/-- One operation step; `none` models the panic inside `create_entity` when
a leased block cannot allocate. -/
def AllocOp.step : AllocOp → TwoAllocState → Option TwoAllocState
  | .createA, s => (s.allocA.createEntity s.shared).map fun r => ⟨r.2.2, r.2.1, s.allocB⟩
  | .createB, s => (s.allocB.createEntity s.shared).map fun r => ⟨r.2.2, s.allocA, r.2.1⟩
  | .deleteA e, s => some ⟨s.shared, (s.allocA.deleteEntity e).2, s.allocB⟩
  | .deleteB e, s => some ⟨s.shared, s.allocA, (s.allocB.deleteEntity e).2⟩

/-- Execution of a sequence of operations. -/
def execOps : List AllocOp → TwoAllocState → Option TwoAllocState
  | [], s => some s
  | op :: ops, s => (op.step s).bind (execOps ops)

/-- Fresh shared BlockAllocator with two fresh EntityAllocators. -/
def initTwoAlloc : TwoAllocState := ⟨⟨0, []⟩, ⟨[], []⟩, ⟨[], []⟩⟩

/-- The index ranges `[start, start+len)` of all blocks leased to the two
allocators are pairwise disjoint. -/
def RangesDisjoint (s : TwoAllocState) : Prop :=
  (s.allocA.blocks ++ s.allocB.blocks).Pairwise
    (fun b1 b2 => b1.start + b1.len ≤ b2.start ∨ b2.start + b2.len ≤ b1.start)

/-- No entity is simultaneously alive in both allocators. -/
def NoSharedAlive (s : TwoAllocState) : Prop :=
  ∀ e : Entity, s.allocA.isAlive e = true → s.allocB.isAlive e = true → False

/-- C5 exactly as claimed: after every operation sequence the leased ranges
are globally unique and the allocators never hold identical alive entities. -/
def TwoAllocClaim : Prop :=
  ∀ (ops : List AllocOp) (s : TwoAllocState),
    execOps ops initTwoAlloc = some s → RangesDisjoint s ∧ NoSharedAlive s

/-- The j-th block ever minted by the shared allocator, holding `m`
initialised slots all at version 1 and an empty free list; its start is the
truncated cast `(1024 * j) as u16`. -/
def filledBlock (j m : Nat) : EntityBlock :=
  ⟨(1024 * j) % 65536, 1024, List.replicate m 1, []⟩

/-- State of the run in which allocator A alone creates entities and never
deletes: k completely filled blocks followed by one block with m initialised
slots; the shared counter has leased k+1 blocks; B is untouched. -/
def stageState (k m : Nat) (buf : List Entity) : TwoAllocState :=
  ⟨⟨1024 * (k + 1), []⟩,
   ⟨(List.range k).map (fun j => filledBlock j 1024) ++ [filledBlock k m], buf⟩,
   ⟨[], []⟩⟩

theorem allocate_filledBlock_full (j : Nat) : (filledBlock j 1024).allocate = none := by
  simp [EntityBlock.allocate, filledBlock]

theorem allocate_filledBlock_room (k m : Nat) (h : m < 1024) :
    (filledBlock k m).allocate =
      some (⟨((1024 * k) % 65536 + m) % 65536, 1⟩, filledBlock k (m + 1)) := by
  simp [EntityBlock.allocate, filledBlock, h, List.replicate_succ']

theorem allocFromBlocks_append_some (xs : List EntityBlock) (b : EntityBlock)
    (e : Entity) (b2 : EntityBlock) (h : b.allocate = some (e, b2)) :
    allocFromBlocks (xs ++ [b]) = some (e, xs ++ [b2]) := by
  induction xs with
  | nil => simp [allocFromBlocks, h]
  | cons x xs ih => simp [allocFromBlocks, ih]

theorem allocFromBlocks_all_none (l : List EntityBlock)
    (h : ∀ b ∈ l, b.allocate = none) : allocFromBlocks l = none := by
  induction l with
  | nil => rfl
  | cons x xs ih =>
    have hx := h x (List.mem_cons_self x xs)
    have hxs := ih (fun b hb => h b (List.mem_cons_of_mem x hb))
    simp [allocFromBlocks, hx, hxs]

theorem step_createA_fill (k m : Nat) (buf : List Entity) (h : m < 1024) :
    AllocOp.step .createA (stageState k m buf) =
      some (stageState k (m + 1) (buf ++ [⟨((1024 * k) % 65536 + m) % 65536, 1⟩])) := by
  have halloc := allocFromBlocks_append_some
    ((List.range k).map (fun j => filledBlock j 1024)) (filledBlock k m)
    ⟨((1024 * k) % 65536 + m) % 65536, 1⟩ (filledBlock k (m + 1))
    (allocate_filledBlock_room k m h)
  simp only [AllocOp.step, EntityAllocator.createEntity, stageState, halloc,
    Option.map_some']

theorem step_createA_mint (k : Nat) (buf : List Entity) :
    AllocOp.step .createA (stageState k 1024 buf) =
      some (stageState (k + 1) 1 (buf ++ [⟨(1024 * (k + 1)) % 65536, 1⟩])) := by
  have hfull : allocFromBlocks
      ((List.range k).map (fun j => filledBlock j 1024) ++ [filledBlock k 1024]) = none := by
    apply allocFromBlocks_all_none
    intro b hb
    rcases List.mem_append.mp hb with hb | hb
    · obtain ⟨j, _, rfl⟩ := List.mem_map.mp hb
      exact allocate_filledBlock_full j
    · rw [List.mem_singleton.mp hb]
      exact allocate_filledBlock_full k
  have hrange : (List.range (k + 1)).map (fun j => filledBlock j 1024) =
      (List.range k).map (fun j => filledBlock j 1024) ++ [filledBlock k 1024] := by
    rw [List.range_succ, List.map_append, List.map_singleton]
  have hmod : ((1024 * (k + 1)) % 65536 + 0) % 65536 = (1024 * (k + 1)) % 65536 := by
    rw [Nat.add_zero]
    exact Nat.mod_mod_of_dvd _ dvd_rfl
  simp only [AllocOp.step, EntityAllocator.createEntity, stageState, hfull,
    BlockAllocator.allocate, EntityBlock.allocate, List.length_nil, hrange,
    Option.map_some']
  norm_num [hmod]
  constructor
  · ring
  · rfl

theorem execOps_append (l1 l2 : List AllocOp) (s : TwoAllocState) :
    execOps (l1 ++ l2) s = (execOps l1 s).bind (execOps l2) := by
  induction l1 generalizing s with
  | nil => simp [execOps]
  | cons op ops ih =>
    simp only [List.cons_append, execOps]
    rcases h : op.step s with _ | s2
    · simp
    · simp [ih]

theorem exec_fill (c : Nat) : ∀ (k m : Nat) (buf : List Entity), m + c ≤ 1024 →
    ∃ buf2, execOps (List.replicate c .createA) (stageState k m buf) =
      some (stageState k (m + c) buf2) := by
  induction c with
  | zero => intro k m buf _; exact ⟨buf, rfl⟩
  | succ c ih =>
    intro k m buf h
    rw [List.replicate_succ]
    have hm : m < 1024 := by omega
    obtain ⟨buf2, hrest⟩ := ih k (m + 1)
      (buf ++ [⟨((1024 * k) % 65536 + m) % 65536, 1⟩]) (by omega)
    refine ⟨buf2, ?_⟩
    simp only [execOps, step_createA_fill k m buf hm, Option.some_bind]
    rw [show m + (c + 1) = m + 1 + c from by omega]
    exact hrest

theorem exec_round (k : Nat) (buf : List Entity) :
    ∃ buf2, execOps (List.replicate 1024 .createA) (stageState k 1024 buf) =
      some (stageState (k + 1) 1024 buf2) := by
  obtain ⟨buf2, hfill⟩ := exec_fill 1023 (k + 1) 1
    (buf ++ [⟨(1024 * (k + 1)) % 65536, 1⟩]) (by omega)
  refine ⟨buf2, ?_⟩
  rw [show (1024 : Nat) = 1 + 1023 from by norm_num, List.replicate_add,
    execOps_append, List.replicate_one]
  have hstep : execOps [AllocOp.createA] (stageState k 1024 buf) =
      some (stageState (k + 1) 1 (buf ++ [⟨(1024 * (k + 1)) % 65536, 1⟩])) := by
    simp only [execOps, step_createA_mint k buf, Option.some_bind]
  rw [hstep, Option.some_bind, hfill]

theorem exec_rounds (j : Nat) : ∀ (k : Nat) (buf : List Entity),
    ∃ buf2, execOps (List.replicate (1024 * j) .createA) (stageState k 1024 buf) =
      some (stageState (k + j) 1024 buf2) := by
  induction j with
  | zero => intro k buf; exact ⟨buf, rfl⟩
  | succ j ih =>
    intro k buf
    have h1 : 1024 * (j + 1) = 1024 + 1024 * j := by ring
    rw [h1, List.replicate_add, execOps_append]
    obtain ⟨buf2, hround⟩ := exec_round k buf
    obtain ⟨buf3, hrest⟩ := ih (k + 1) buf2
    refine ⟨buf3, ?_⟩
    rw [hround]
    simpa [Nat.add_assoc, Nat.add_comm 1 j] using hrest

theorem exec_to_collision :
    ∃ buf, execOps (List.replicate 66560 .createA) initTwoAlloc =
      some (stageState 64 1024 buf) := by
  have hfirst : execOps [.createA] initTwoAlloc = some (stageState 0 1 [⟨0, 1⟩]) := by
    decide
  obtain ⟨buf2, hfill⟩ := exec_fill 1023 0 1 [⟨0, 1⟩] (by omega)
  rw [show (1 : Nat) + 1023 = 1024 from by norm_num] at hfill
  obtain ⟨buf3, hrounds⟩ := exec_rounds 64 0 buf2
  rw [Nat.zero_add] at hrounds
  refine ⟨buf3, ?_⟩
  rw [show (66560 : Nat) = 1 + (1023 + 1024 * 64) from by norm_num, List.replicate_add,
    execOps_append, List.replicate_one, hfirst, Option.some_bind, List.replicate_add,
    execOps_append, hfill, Option.some_bind, hrounds]

theorem not_rangesDisjoint_collision (buf : List Entity) :
    ¬ RangesDisjoint (stageState 64 1024 buf) := by
  intro h
  unfold RangesDisjoint stageState at h
  rw [List.pairwise_append] at h
  obtain ⟨h1, -, -⟩ := h
  rw [List.pairwise_append] at h1
  obtain ⟨-, -, h2⟩ := h1
  have hmem : filledBlock 0 1024 ∈ (List.range 64).map (fun j => filledBlock j 1024) :=
    List.mem_map.mpr ⟨0, by simp, rfl⟩
  have := h2 (filledBlock 0 1024) hmem (filledBlock 64 1024) (List.mem_singleton.mpr rfl)
  simp only [filledBlock] at this
  omega

/-- C5 counterexample: the claimed property fails.  After allocator A alone
creates 66560 entities, the shared counter has leased 65 blocks; the 65th
mint computes its start as `(1024 * 64) as u16 = 0`, colliding with the
first block's range `[0, 1024)`.  The leased index ranges are therefore not
globally unique. -/
theorem cross_allocator_claim_fails : ¬ TwoAllocClaim := by
  intro h
  obtain ⟨buf, hexec⟩ := exec_to_collision
  exact not_rangesDisjoint_collision buf (h _ _ hexec).1

/-- Shape invariant of a leased block while the shared counter is within the
u16 index space: capacity 1024, at most 1024 initialised slots, start a
multiple of 1024 lying at least one block below the counter. -/
def blockOk (cap : Nat) (b : EntityBlock) : Prop :=
  b.len = 1024 ∧ b.versions.length ≤ 1024 ∧ 1024 ∣ b.start ∧ b.start + 1024 ≤ cap

/-- Structural invariant relating the two allocators and the shared counter:
the shared free list stays empty (blocks return only on drop, which is not
an operation), the counter is a multiple of 1024, every leased block is
well-shaped, and the leased starts are pairwise distinct. -/
def BlocksWF (s : TwoAllocState) : Prop :=
  s.shared.free = [] ∧ 1024 ∣ s.shared.allocated ∧
  (∀ b ∈ s.allocA.blocks ++ s.allocB.blocks, blockOk s.shared.allocated b) ∧
  ((s.allocA.blocks ++ s.allocB.blocks).map EntityBlock.start).Pairwise (· ≠ ·)

theorem allocate_block_shape (b : EntityBlock) (e : Entity) (b2 : EntityBlock)
    (h : b.allocate = some (e, b2)) (cap : Nat) (hok : blockOk cap b) :
    blockOk cap b2 ∧ b2.start = b.start := by
  obtain ⟨hlen, hv, hdvd, hle⟩ := hok
  unfold EntityBlock.allocate at h
  rcases hfree : b.free with _ | ⟨i, rest⟩ <;> rw [hfree] at h
  · by_cases hroom : b.versions.length < b.len
    · rw [if_pos hroom] at h
      obtain ⟨-, h2⟩ := Prod.mk.injEq .. ▸ (Option.some.injEq _ _).mp h
      subst h2
      refine ⟨⟨hlen, ?_, hdvd, hle⟩, rfl⟩
      simp only [List.length_append, List.length_singleton]
      omega
    · rw [if_neg hroom] at h
      exact absurd h (by simp)
  · obtain ⟨-, h2⟩ := Prod.mk.injEq .. ▸ (Option.some.injEq _ _).mp h
    subst h2
    exact ⟨⟨hlen, hv, hdvd, hle⟩, rfl⟩

theorem freeEntity_block_shape (b : EntityBlock) (e : Entity) (r : Bool) (b2 : EntityBlock)
    (h : b.freeEntity e = some (r, b2)) (cap : Nat) (hok : blockOk cap b) :
    blockOk cap b2 ∧ b2.start = b.start := by
  obtain ⟨hlen, hv, hdvd, hle⟩ := hok
  rw [freeEntity_eq] at h
  rcases ha : b.isAlive e with _ | alive <;> rw [ha] at h
  · exact absurd h (by simp)
  · simp only [Option.map_some', Option.some.injEq, Prod.mk.injEq] at h
    obtain ⟨-, h2⟩ := h
    subst h2
    refine ⟨⟨hlen, ?_, hdvd, hle⟩, rfl⟩
    simp only [EntityBlock.bumpPush, List.length_set]
    exact hv

theorem allocFromBlocks_shape (l : List EntityBlock) :
    ∀ (e : Entity) (l2 : List EntityBlock), allocFromBlocks l = some (e, l2) →
      ∀ cap, (∀ b ∈ l, blockOk cap b) →
        (∀ b ∈ l2, blockOk cap b) ∧ l2.map EntityBlock.start = l.map EntityBlock.start := by
  induction l with
  | nil => intro e l2 h cap _; exact absurd h (by simp [allocFromBlocks])
  | cons b bs ih =>
    intro e l2 h cap hok
    unfold allocFromBlocks at h
    rcases hrec : allocFromBlocks bs with _ | r <;> rw [hrec] at h
    · rcases halloc : b.allocate with _ | r2 <;> rw [halloc] at h
      · exact absurd h (by simp)
      · simp only [Option.some.injEq, Prod.mk.injEq] at h
        obtain ⟨rfl, rfl⟩ := h
        obtain ⟨hok2, hst⟩ := allocate_block_shape b r2.1 r2.2 (by simpa using halloc) cap
          (hok b (List.mem_cons_self b bs))
        refine ⟨?_, ?_⟩
        · intro x hx
          rcases List.mem_cons.mp hx with rfl | hx
          · exact hok2
          · exact hok x (List.mem_cons_of_mem b hx)
        · simp [hst]
    · simp only [Option.some.injEq, Prod.mk.injEq] at h
      obtain ⟨rfl, rfl⟩ := h
      obtain ⟨hok2, hmap⟩ := ih r.1 r.2 (by simpa using hrec) cap
        (fun x hx => hok x (List.mem_cons_of_mem b hx))
      refine ⟨?_, ?_⟩
      · intro x hx
        rcases List.mem_cons.mp hx with rfl | hx
        · exact hok x (List.mem_cons_self x bs)
        · exact hok2 x hx
      · simp [hmap]

theorem deleteFromBlocks_shape (l : List EntityBlock) (e : Entity) (cap : Nat)
    (hok : ∀ b ∈ l, blockOk cap b) :
    (∀ b ∈ (deleteFromBlocks l e).2, blockOk cap b) ∧
      (deleteFromBlocks l e).2.map EntityBlock.start = l.map EntityBlock.start := by
  induction l with
  | nil => exact ⟨by simp [deleteFromBlocks], rfl⟩
  | cons b bs ih =>
    unfold deleteFromBlocks
    rcases hf : b.freeEntity e with _ | r
    · obtain ⟨ih1, ih2⟩ := ih (fun x hx => hok x (List.mem_cons_of_mem b hx))
      refine ⟨?_, by simp [ih2]⟩
      intro x hx
      rcases List.mem_cons.mp hx with rfl | hx
      · exact hok x (List.mem_cons_self x bs)
      · exact ih1 x hx
    · obtain ⟨hok2, hst⟩ := freeEntity_block_shape b e r.1 r.2 (by simpa using hf) cap
        (hok b (List.mem_cons_self b bs))
      refine ⟨?_, by simp [hst]⟩
      intro x hx
      rcases List.mem_cons.mp hx with rfl | hx
      · exact hok2
      · exact hok x (List.mem_cons_of_mem b hx)

theorem createEntity_shared_mono (a : EntityAllocator) (sh : BlockAllocator)
    (r : Entity × EntityAllocator × BlockAllocator)
    (h : a.createEntity sh = some r) : sh.allocated ≤ r.2.2.allocated := by
  unfold EntityAllocator.createEntity at h
  rcases ha : allocFromBlocks a.blocks with _ | r2 <;> rw [ha] at h
  · rcases hfr : sh.free with _ | ⟨fb, rest⟩ <;> rw [BlockAllocator.allocate, hfr] at h <;>
      dsimp only at h
    · rcases hba : (⟨sh.allocated % 65536, 1024, [], []⟩ : EntityBlock).allocate
        with _ | r3 <;> rw [hba] at h
      · exact absurd h (by simp)
      · simp only [Option.some.injEq] at h
        subst h
        simp
    · rcases hba : fb.allocate with _ | r3 <;> rw [hba] at h
      · exact absurd h (by simp)
      · simp only [Option.some.injEq] at h
        subst h
        simp
  · simp only [Option.some.injEq] at h
    subst h
    simp

theorem step_allocated_mono (op : AllocOp) (s s2 : TwoAllocState)
    (h : op.step s = some s2) : s.shared.allocated ≤ s2.shared.allocated := by
  rcases op with _ | _ | e | e <;> simp only [AllocOp.step] at h
  · rcases hc : s.allocA.createEntity s.shared with _ | r <;> rw [hc] at h
    · exact absurd h (by simp)
    · simp only [Option.map_some', Option.some.injEq] at h
      subst h
      exact createEntity_shared_mono _ _ _ hc
  · rcases hc : s.allocB.createEntity s.shared with _ | r <;> rw [hc] at h
    · exact absurd h (by simp)
    · simp only [Option.map_some', Option.some.injEq] at h
      subst h
      exact createEntity_shared_mono _ _ _ hc
  · simp only [Option.some.injEq] at h
    subst h
    simp
  · simp only [Option.some.injEq] at h
    subst h
    simp

theorem blockOk_mono (cap cap2 : Nat) (hc : cap ≤ cap2) (b : EntityBlock)
    (h : blockOk cap b) : blockOk cap2 b := by
  obtain ⟨h1, h2, h3, h4⟩ := h
  exact ⟨h1, h2, h3, by omega⟩

theorem createEntity_wf_effect (a : EntityAllocator) (sh : BlockAllocator)
    (r : Entity × EntityAllocator × BlockAllocator)
    (hfree : sh.free = []) (h : a.createEntity sh = some r) :
    r.2.2.free = [] ∧
    ((r.2.2.allocated = sh.allocated ∧
       ∀ cap, (∀ b ∈ a.blocks, blockOk cap b) →
         (∀ b ∈ r.2.1.blocks, blockOk cap b) ∧
           r.2.1.blocks.map EntityBlock.start = a.blocks.map EntityBlock.start) ∨
     (r.2.2.allocated = sh.allocated + 1024 ∧
       r.2.1.blocks = a.blocks ++ [⟨sh.allocated % 65536, 1024, [1], []⟩])) := by
  unfold EntityAllocator.createEntity at h
  rcases ha : allocFromBlocks a.blocks with _ | r2 <;> rw [ha] at h
  · rw [BlockAllocator.allocate, hfree] at h
    dsimp only at h
    rw [show (⟨sh.allocated % 65536, 1024, [], []⟩ : EntityBlock).allocate =
        some (⟨(sh.allocated % 65536 + 0) % 65536, 1⟩, ⟨sh.allocated % 65536, 1024, [1], []⟩)
      from by simp [EntityBlock.allocate]] at h
    simp only [Option.some.injEq] at h
    subst h
    exact ⟨rfl, Or.inr ⟨rfl, rfl⟩⟩
  · simp only [Option.some.injEq] at h
    subst h
    exact ⟨hfree, Or.inl ⟨rfl, fun cap hok =>
      allocFromBlocks_shape a.blocks r2.1 r2.2 ha cap hok⟩⟩

theorem pairwise_ne_append_singleton (l : List Nat) (x : Nat)
    (hp : l.Pairwise (· ≠ ·)) (hx : ∀ y ∈ l, y ≠ x) :
    (l ++ [x]).Pairwise (· ≠ ·) := by
  rw [List.pairwise_append]
  refine ⟨hp, List.pairwise_singleton _ _, ?_⟩
  intro a ha b hb
  rw [List.mem_singleton.mp hb]
  exact hx a ha

theorem pairwise_ne_insert_middle (l1 l2 : List Nat) (x : Nat)
    (hp : (l1 ++ l2).Pairwise (· ≠ ·))
    (hx : ∀ y ∈ l1 ++ l2, y ≠ x) :
    (l1 ++ [x] ++ l2).Pairwise (· ≠ ·) := by
  rw [List.pairwise_append] at hp
  obtain ⟨h1, h2, h12⟩ := hp
  rw [List.pairwise_append]
  refine ⟨?_, h2, ?_⟩
  · exact pairwise_ne_append_singleton l1 x h1 (fun y hy => hx y (List.mem_append_left _ hy))
  · intro a ha b hb
    rcases List.mem_append.mp ha with ha | ha
    · exact h12 a ha b hb
    · rw [List.mem_singleton.mp ha]
      exact (hx b (List.mem_append_right _ hb)).symm

theorem step_preserves_wf (op : AllocOp) (s s2 : TwoAllocState)
    (hwf : BlocksWF s) (hstep : op.step s = some s2)
    (hcap : s2.shared.allocated ≤ 65536) : BlocksWF s2 := by
  obtain ⟨hfree, hdvd, hok, hpw⟩ := hwf
  rcases op with _ | _ | e | e <;> simp only [AllocOp.step] at hstep
  · rcases hc : s.allocA.createEntity s.shared with _ | r <;> rw [hc] at hstep
    · exact absurd hstep (by simp)
    · simp only [Option.map_some', Option.some.injEq] at hstep
      subst hstep
      obtain ⟨hfree2, hcase⟩ := createEntity_wf_effect _ _ _ hfree hc
      rcases hcase with ⟨hall, heff⟩ | ⟨hall, hblocks⟩
      · obtain ⟨hok2, hmap⟩ := heff s.shared.allocated
          (fun b hb => hok b (List.mem_append_left _ hb))
        refine ⟨hfree2, by rw [hall]; exact hdvd, ?_, ?_⟩
        · intro b hb
          rw [hall]
          rcases List.mem_append.mp hb with hb | hb
          · exact hok2 b hb
          · exact hok b (List.mem_append_right _ hb)
        · rw [List.map_append, hmap, ← List.map_append]
          exact hpw
      · have hlt : s.shared.allocated < 65536 := by
          have : r.2.2.allocated ≤ 65536 := hcap
          omega
        have hstart : s.shared.allocated % 65536 = s.shared.allocated :=
          Nat.mod_eq_of_lt hlt
        refine ⟨hfree2, by rw [hall]; exact Dvd.dvd.add hdvd dvd_rfl, ?_, ?_⟩
        · intro b hb
          rw [hblocks] at hb
          rw [hall]
          rcases List.mem_append.mp hb with hb | hb
          · rcases List.mem_append.mp hb with hb | hb
            · exact blockOk_mono _ _ (by omega) b (hok b (List.mem_append_left _ hb))
            · rw [List.mem_singleton.mp hb]
              unfold blockOk
              dsimp only
              rw [hstart]
              exact ⟨rfl, by norm_num, hdvd, le_refl _⟩
          · exact blockOk_mono _ _ (by omega) b (hok b (List.mem_append_right _ hb))
        · rw [hblocks, List.map_append, List.map_append, List.map_singleton, hstart]
          dsimp only
          refine pairwise_ne_insert_middle _ _ _ (by rw [← List.map_append]; exact hpw) ?_
          intro y hy
          rw [← List.map_append] at hy
          obtain ⟨b, hb, rfl⟩ := List.mem_map.mp hy
          obtain ⟨-, -, -, hble⟩ := hok b hb
          omega
  · rcases hc : s.allocB.createEntity s.shared with _ | r <;> rw [hc] at hstep
    · exact absurd hstep (by simp)
    · simp only [Option.map_some', Option.some.injEq] at hstep
      subst hstep
      obtain ⟨hfree2, hcase⟩ := createEntity_wf_effect _ _ _ hfree hc
      rcases hcase with ⟨hall, heff⟩ | ⟨hall, hblocks⟩
      · obtain ⟨hok2, hmap⟩ := heff s.shared.allocated
          (fun b hb => hok b (List.mem_append_right _ hb))
        refine ⟨hfree2, by rw [hall]; exact hdvd, ?_, ?_⟩
        · intro b hb
          rw [hall]
          rcases List.mem_append.mp hb with hb | hb
          · exact hok b (List.mem_append_left _ hb)
          · exact hok2 b hb
        · rw [List.map_append, hmap, ← List.map_append]
          exact hpw
      · have hlt : s.shared.allocated < 65536 := by
          have : r.2.2.allocated ≤ 65536 := hcap
          omega
        have hstart : s.shared.allocated % 65536 = s.shared.allocated :=
          Nat.mod_eq_of_lt hlt
        refine ⟨hfree2, by rw [hall]; exact Dvd.dvd.add hdvd dvd_rfl, ?_, ?_⟩
        · intro b hb
          rw [hblocks] at hb
          rw [hall]
          rcases List.mem_append.mp hb with hb | hb
          · exact blockOk_mono _ _ (by omega) b (hok b (List.mem_append_left _ hb))
          · rcases List.mem_append.mp hb with hb | hb
            · exact blockOk_mono _ _ (by omega) b (hok b (List.mem_append_right _ hb))
            · rw [List.mem_singleton.mp hb]
              unfold blockOk
              dsimp only
              rw [hstart]
              exact ⟨rfl, by norm_num, hdvd, le_refl _⟩
        · rw [hblocks, List.map_append, List.map_append, List.map_singleton, hstart,
            ← List.append_assoc, ← List.map_append]
          dsimp only
          refine pairwise_ne_append_singleton _ _ hpw ?_
          intro y hy
          obtain ⟨b, hb, rfl⟩ := List.mem_map.mp hy
          obtain ⟨-, -, -, hble⟩ := hok b hb
          omega
  · simp only [Option.some.injEq] at hstep
    subst hstep
    obtain ⟨hok2, hmap⟩ := deleteFromBlocks_shape s.allocA.blocks e s.shared.allocated
      (fun b hb => hok b (List.mem_append_left _ hb))
    refine ⟨hfree, hdvd, ?_, ?_⟩
    · intro b hb
      rcases List.mem_append.mp hb with hb | hb
      · exact hok2 b hb
      · exact hok b (List.mem_append_right _ hb)
    · show (((s.allocA.deleteEntity e).2.blocks ++ s.allocB.blocks).map EntityBlock.start).Pairwise _
      have hb2 : (s.allocA.deleteEntity e).2.blocks = (deleteFromBlocks s.allocA.blocks e).2 := rfl
      rw [hb2, List.map_append, hmap, ← List.map_append]
      exact hpw
  · simp only [Option.some.injEq] at hstep
    subst hstep
    obtain ⟨hok2, hmap⟩ := deleteFromBlocks_shape s.allocB.blocks e s.shared.allocated
      (fun b hb => hok b (List.mem_append_right _ hb))
    refine ⟨hfree, hdvd, ?_, ?_⟩
    · intro b hb
      rcases List.mem_append.mp hb with hb | hb
      · exact hok b (List.mem_append_left _ hb)
      · exact hok2 b hb
    · show ((s.allocA.blocks ++ (s.allocB.deleteEntity e).2.blocks).map EntityBlock.start).Pairwise _
      have hb2 : (s.allocB.deleteEntity e).2.blocks = (deleteFromBlocks s.allocB.blocks e).2 := rfl
      rw [hb2, List.map_append, hmap, ← List.map_append]
      exact hpw

theorem execOps_allocated_mono (ops : List AllocOp) : ∀ s s2, execOps ops s = some s2 →
    s.shared.allocated ≤ s2.shared.allocated := by
  induction ops with
  | nil =>
    intro s s2 h
    simp only [execOps, Option.some.injEq] at h
    subst h
    exact le_refl _
  | cons op ops ih =>
    intro s s2 h
    simp only [execOps] at h
    rcases hs : op.step s with _ | s1 <;> rw [hs] at h
    · exact absurd h (by simp)
    · rw [Option.some_bind] at h
      exact le_trans (step_allocated_mono op s s1 hs) (ih s1 s2 h)

theorem execOps_preserves_wf (ops : List AllocOp) : ∀ s s2, BlocksWF s →
    execOps ops s = some s2 → s2.shared.allocated ≤ 65536 → BlocksWF s2 := by
  induction ops with
  | nil =>
    intro s s2 hwf h _
    simp only [execOps, Option.some.injEq] at h
    subst h
    exact hwf
  | cons op ops ih =>
    intro s s2 hwf h hcap
    simp only [execOps] at h
    rcases hs : op.step s with _ | s1 <;> rw [hs] at h
    · exact absurd h (by simp)
    · rw [Option.some_bind] at h
      have hcap1 : s1.shared.allocated ≤ 65536 :=
        le_trans (execOps_allocated_mono ops s1 s2 h) hcap
      exact ih s1 s2 (step_preserves_wf op s s1 hwf hs hcap1) h hcap

theorem wf_rangesDisjoint (s : TwoAllocState) (hwf : BlocksWF s) : RangesDisjoint s := by
  obtain ⟨-, -, hok, hpw⟩ := hwf
  rw [List.pairwise_map] at hpw
  unfold RangesDisjoint
  refine List.Pairwise.imp_of_mem ?_ hpw
  intro b1 b2 h1 h2 hne
  obtain ⟨hl1, -, hd1, -⟩ := hok b1 h1
  obtain ⟨hl2, -, hd2, -⟩ := hok b2 h2
  obtain ⟨k1, hk1⟩ := hd1
  obtain ⟨k2, hk2⟩ := hd2
  omega

theorem alive_covering (l : List EntityBlock) (e : Entity)
    (h : (aliveFromBlocks l e).getD false = true) :
    ∃ b ∈ l, b.start ≤ e.index ∧ e.index - b.start < b.versions.length := by
  induction l with
  | nil => simp [aliveFromBlocks] at h
  | cons b bs ih =>
    unfold aliveFromBlocks at h
    rcases ha : b.isAlive e with _ | r <;> rw [ha] at h
    · obtain ⟨b2, hb2, hc⟩ := ih h
      exact ⟨b2, List.mem_cons_of_mem b hb2, hc⟩
    · unfold EntityBlock.isAlive at ha
      by_cases hle : b.start ≤ e.index
      · rw [if_pos hle] at ha
        rcases hv : b.versions.get? (e.index - b.start) with _ | v <;> rw [hv] at ha
        · exact absurd ha (by simp)
        · refine ⟨b, List.mem_cons_self b bs, hle, ?_⟩
          by_contra hcon
          rw [List.get?_eq_none.mpr (Nat.le_of_not_lt hcon)] at hv
          exact Option.noConfusion hv
      · rw [if_neg hle] at ha
        exact Option.noConfusion ha

theorem wf_noSharedAlive (s : TwoAllocState) (hwf : BlocksWF s) : NoSharedAlive s := by
  obtain ⟨-, -, hok, hpw⟩ := hwf
  intro e hA hB
  obtain ⟨bA, hbA, hA1, hA2⟩ := alive_covering s.allocA.blocks e hA
  obtain ⟨bB, hbB, hB1, hB2⟩ := alive_covering s.allocB.blocks e hB
  rw [List.map_append, List.pairwise_append] at hpw
  obtain ⟨-, -, hcross⟩ := hpw
  have hne := hcross bA.start (List.mem_map_of_mem _ hbA) bB.start (List.mem_map_of_mem _ hbB)
  obtain ⟨-, hvA, hdA, -⟩ := hok bA (List.mem_append_left _ hbA)
  obtain ⟨-, hvB, hdB, -⟩ := hok bB (List.mem_append_right _ hbB)
  obtain ⟨k1, hk1⟩ := hdA
  obtain ⟨k2, hk2⟩ := hdB
  omega

/-- C5 amended: for every operation sequence on two EntityAllocators sharing
a fresh BlockAllocator, as long as the shared counter has leased at most 64
blocks (allocated ≤ 65536, i.e. the u16 index space is not exhausted), the
leased index ranges are pairwise disjoint and the two allocators never hold
the same entity alive.  Beyond that bound the truncating u16 cast in
`BlockAllocator::allocate` reuses start 0 and the property fails. -/
theorem cross_allocator_disjoint_bounded (ops : List AllocOp) (s : TwoAllocState)
    (hexec : execOps ops initTwoAlloc = some s)
    (hcap : s.shared.allocated ≤ 65536) :
    RangesDisjoint s ∧ NoSharedAlive s := by
  have hwf0 : BlocksWF initTwoAlloc :=
    ⟨rfl, dvd_zero 1024, by intro b hb; exact absurd hb (by simp [initTwoAlloc]),
     by simp [initTwoAlloc]⟩
  have hwf := execOps_preserves_wf ops initTwoAlloc s hwf0 hexec hcap
  exact ⟨wf_rangesDisjoint s hwf, wf_noSharedAlive s hwf⟩

/-- Witness for the amended C5 theorem at the one-operation sequence
consisting of a single creation through allocator A. -/
theorem cross_allocator_disjoint_bounded_witness :
    RangesDisjoint ⟨⟨1024, []⟩, ⟨[⟨0, 1024, [1], []⟩], [⟨0, 1⟩]⟩, ⟨[], []⟩⟩ ∧
    NoSharedAlive ⟨⟨1024, []⟩, ⟨[⟨0, 1024, [1], []⟩], [⟨0, 1⟩]⟩, ⟨[], []⟩⟩ :=
  cross_allocator_disjoint_bounded [AllocOp.createA] _ (by decide) (by decide)

/-- Modelled from the spec: Chunk (spec.md sections 3 and 4.2; the module
storage.rs is declared by lib.rs but absent from src/).  A fixed-capacity
column store: a parallel entity list, one densely packed column per
component type, one value per shared type.  Component values are erased to
naturals; component and shared types are identified by natural type ids.
The capacity is implementation-chosen in the source; 1024 here. -/
structure Chunk where
  entities : List Entity
  columns : List (Nat × List Nat)
  sharedVals : List (Nat × Nat)
  cap : Nat
deriving DecidableEq

/-- Modelled from the spec: Vec::swap_remove of storage.rs --- the last
element moves into the removed position; removing the last slot is a plain
pop.  Callers guarantee the index is in range. -/
def swapRemove {α : Type} (l : List α) (i : Nat) : List α :=
  match l.getLast? with
  | none => l
  | some last => (l.set i last).dropLast

/-- Chunk::is_full. -/
def Chunk.isFull (c : Chunk) : Bool := c.cap ≤ c.entities.length

/-- Chunk::entity_data access: the column for a component type id, None when
the type is not part of the archetype. -/
def Chunk.lookupColumn (c : Chunk) (t : Nat) : Option (List Nat) :=
  (c.columns.find? (fun p => p.1 == t)).map (fun p => p.2)

/-- Chunk::shared_component: the per-chunk value of a shared type, None when
absent. -/
def Chunk.sharedValue (c : Chunk) (t : Nat) : Option Nat :=
  (c.sharedVals.find? (fun p => p.1 == t)).map (fun p => p.2)

/-- Modelled from the spec: appending one entity and its component row to a
chunk --- the entity is pushed on the entity column and each column receives
the row's value for its type (rows are well-typed at call sites; a missing
value is modelled as 0). -/
def Chunk.appendRow (c : Chunk) (e : Entity) (types : List Nat) (row : List Nat) : Chunk :=
  { c with
    entities := c.entities ++ [e],
    columns := c.columns.map (fun p =>
      (p.1, p.2 ++ [((((types.zip row).find? (fun q => q.1 == p.1)).map (fun q => q.2)).getD 0)])) }

/-- Modelled from the spec: Chunk::remove --- swap-remove the slot from the
entity column and every component column; return the entity that was moved
from the tail into the slot, or none when the removed slot was the tail.
Out-of-range slots (ruled out by the contract) leave the chunk unchanged. -/
def Chunk.removeSlot (c : Chunk) (slot : Nat) : Option Entity × Chunk :=
  if slot < c.entities.length then
    (if slot + 1 = c.entities.length then none else c.entities.getLast?,
     { c with
       entities := swapRemove c.entities slot,
       columns := c.columns.map (fun p => (p.1, swapRemove p.2 slot)) })
  else (none, c)

/-- Modelled from the spec: Archetype --- the component type id set, the
shared type id set and the ordered chunk list. -/
structure Archetype where
  componentTypes : List Nat
  sharedTypes : List Nat
  chunks : List Chunk
deriving DecidableEq

/-- Archetype::has_component. -/
def Archetype.hasComponent (a : Archetype) (t : Nat) : Bool := a.componentTypes.contains t

/-- Archetype::has_shared. -/
def Archetype.hasShared (a : Archetype) (t : Nat) : Bool := a.sharedTypes.contains t

/-- The archetype-matching test generated by impl_shared_data_set and
impl_component_source (src/src/lib.rs): the stored type set has the arity of
the requested tuple and contains each requested type. -/
def typeSetMatch (stored req : List Nat) : Bool :=
  stored.length == req.length && req.all (fun t => stored.contains t)

/-- The chunk-matching test of is_chunk_match (src/src/lib.rs): every shared
component of the tuple equals the chunk's stored value.  The source unwraps
the chunk's value (the chunk always carries the archetype's shared types);
an absent value is modelled as a mismatch. -/
def sharedValsMatch (c : Chunk) (svals : List (Nat × Nat)) : Bool :=
  svals.all (fun p => c.sharedValue p.1 == some p.2)

/-- Modelled from the spec: Archetype::get_or_create_chunk --- the first
non-full chunk whose shared values equal the requested tuple; otherwise a
new chunk with those shared values and one empty column per component type
is appended. -/
def Archetype.getOrCreateChunk (a : Archetype) (svals : List (Nat × Nat)) (ctypes : List Nat) :
    Nat × Archetype :=
  match a.chunks.findIdx? (fun c => !c.isFull && sharedValsMatch c svals) with
  | some i => (i, a)
  | none =>
    (a.chunks.length,
     { a with chunks := a.chunks ++ [⟨[], ctypes.map (fun t => (t, [])), svals, 1024⟩] })

/-- World (src/src/lib.rs): the entity allocator (the shared BlockAllocator
handle is carried alongside), the archetype list and the entity location
index.  The HashMap index is an association list whose most recent entry for
a key shadows older ones, which matches HashMap insert/get. -/
structure World where
  allocator : EntityAllocator
  blockAlloc : BlockAllocator
  archetypes : List Archetype
  entityMap : List (Entity × (Nat × Nat × Nat))
deriving DecidableEq

/-- HashMap::get on the modelled index. -/
def mapLookup (m : List (Entity × (Nat × Nat × Nat))) (e : Entity) : Option (Nat × Nat × Nat) :=
  (m.find? (fun p => p.1 == e)).map (fun p => p.2)

/-- The archetype scan of World::archetype (src/src/lib.rs):
`archetypes.iter().enumerate().filter(..).map(|(i, _)| i).next()`. -/
def findArchetype : List Archetype → Nat → (Archetype → Bool) → Option (Nat × Archetype)
  | [], _, _ => none
  | a :: as, i, p => if p a then some (i, a) else findArchetype as (i + 1) p

/-- ComponentSource::write (the impl_component_source macro in
src/src/lib.rs): while the chunk has room and the source has items, create
an entity, push it on the chunk's entity column and push the item's
components onto the columns.  Returns the written chunk, the entities
appended in order, the unconsumed rows and the final allocator states. -/
def writeRows (chunk : Chunk) (ctypes : List Nat) (rows : List (List Nat))
    (alloc : EntityAllocator) (ba : BlockAllocator) :
    Option (Chunk × List Entity × List (List Nat) × EntityAllocator × BlockAllocator) :=
  match rows with
  | [] => some (chunk, [], [], alloc, ba)
  | row :: rest =>
    if chunk.isFull then some (chunk, [], row :: rest, alloc, ba)
    else
      match alloc.createEntity ba with
      | none => none
      | some (e, a2, ba2) =>
        (writeRows (chunk.appendRow e ctypes row) ctypes rest a2 ba2).map
          (fun r => (r.1, e :: r.2.1, r.2.2))

/-- The location recording of World::insert: the entities appended to the
chunk are mapped, in ascending order, to their absolute slots starting at
the chunk length before the write; each HashMap insert replaces, which the
cons order reproduces for lookups. -/
def recordLocations (archId cid : Nat) : Nat → List Entity →
    List (Entity × (Nat × Nat × Nat)) → List (Entity × (Nat × Nat × Nat))
  | _, [], emap => emap
  | slot, e :: es, emap =>
    recordLocations archId cid (slot + 1) es ((e, (archId, cid, slot)) :: emap)

/-- The `while !components.is_empty()` loop of World::insert, structured on
the fuel `rows.length`: each round writes at least one row because
get_or_create_chunk returns a chunk with room, so the fuel suffices;
exhausted fuel (unreachable) yields none. -/
def insertLoop : Nat → Archetype → Nat → List (Nat × Nat) → List Nat →
    List (List Nat) → EntityAllocator → BlockAllocator →
    List (Entity × (Nat × Nat × Nat)) →
    Option (Archetype × EntityAllocator × BlockAllocator × List (Entity × (Nat × Nat × Nat)))
  | _, arch, _, _, _, [], alloc, ba, emap => some (arch, alloc, ba, emap)
  | 0, _, _, _, _, _ :: _, _, _, _ => none
  | fuel + 1, arch, archId, svals, ctypes, rows, alloc, ba, emap =>
    match (arch.getOrCreateChunk svals ctypes).2.chunks[(arch.getOrCreateChunk svals ctypes).1]? with
    | none => none
    | some chunk =>
      match writeRows chunk ctypes rows alloc ba with
      | none => none
      | some (chunk2, es, rem, alloc2, ba2) =>
        insertLoop fuel
          { (arch.getOrCreateChunk svals ctypes).2 with
            chunks := (arch.getOrCreateChunk svals ctypes).2.chunks.set
              (arch.getOrCreateChunk svals ctypes).1 chunk2 }
          archId svals ctypes rem alloc2 ba2
          (recordLocations archId (arch.getOrCreateChunk svals ctypes).1
            chunk.entities.length es emap)

/-- World::insert (src/src/lib.rs): clear the allocation buffer, find or
create the archetype matching the component and shared type sets, run the
chunk-writing loop recording each appended entity's location, and return the
allocation buffer.  The `archetypes.len() as ArchetypeID` cast cannot
truncate below the design capacity of 2^16 archetypes and is modelled
without the wrap. -/
def World.insert (w : World) (svals : List (Nat × Nat)) (ctypes : List Nat)
    (rows : List (List Nat)) : Option (List Entity × World) :=
  let alloc0 : EntityAllocator := { blocks := w.allocator.blocks, entityBuffer := [] }
  let pred := fun a : Archetype =>
    typeSetMatch a.componentTypes ctypes && typeSetMatch a.sharedTypes (svals.map Prod.fst)
  let found :=
    match findArchetype w.archetypes 0 pred with
    | some (i, arch) => (i, arch, w.archetypes)
    | none =>
      (w.archetypes.length, (⟨ctypes, svals.map Prod.fst, []⟩ : Archetype),
       w.archetypes ++ [(⟨ctypes, svals.map Prod.fst, []⟩ : Archetype)])
  (insertLoop rows.length found.2.1 found.1 svals ctypes rows alloc0 w.blockAlloc
      w.entityMap).map
    (fun r => (r.2.1.entityBuffer,
      { allocator := r.2.1, blockAlloc := r.2.2.1,
        archetypes := found.2.2.set found.1 r.1, entityMap := r.2.2.2 }))

/-- World::delete (src/src/lib.rs): free the handle in the allocator (this
mutates the allocator even on a false verdict, see EntityBlock::free); when
the handle was alive, look up its location --- the index entry itself is not
removed --- swap-remove that slot from the chunk and point the moved tail
entity, if any, at the freed slot. -/
def World.delete (w : World) (e : Entity) : Bool × World :=
  let d := w.allocator.deleteEntity e
  if d.1 then
    match mapLookup w.entityMap e with
    | none => (true, { w with allocator := d.2 })
    | some loc =>
      match w.archetypes[loc.1]? with
      | none => (true, { w with allocator := d.2 })
      | some arch =>
        match arch.chunks[loc.2.1]? with
        | none => (true, { w with allocator := d.2 })
        | some chunk =>
          let rc := chunk.removeSlot loc.2.2
          let archetypes2 :=
            w.archetypes.set loc.1 { arch with chunks := arch.chunks.set loc.2.1 rc.2 }
          let emap2 :=
            match rc.1 with
            | some moved => (moved, loc) :: w.entityMap
            | none => w.entityMap
          (true, { w with allocator := d.2, archetypes := archetypes2, entityMap := emap2 })
  else (false, { w with allocator := d.2 })

/-- World::component (src/src/lib.rs): resolve through the entity index,
the archetype, the chunk, the column of the component type and the recorded
slot; None at any absent step (BorrowedSlice::single is modelled from the
spec as a bounds-checked access). -/
def World.component (w : World) (t : Nat) (e : Entity) : Option Nat :=
  (mapLookup w.entityMap e).bind (fun loc =>
    (w.archetypes[loc.1]?).bind (fun arch =>
      (arch.chunks[loc.2.1]?).bind (fun chunk =>
        (chunk.lookupColumn t).bind (fun col => col[loc.2.2]?))))

/-- World::is_alive. -/
def World.isAlive (w : World) (e : Entity) : Bool := w.allocator.isAlive e

/-- The entity stored in the entity column at a recorded location. -/
def entityAtIn (archetypes : List Archetype) (loc : Nat × Nat × Nat) : Option Entity :=
  (archetypes[loc.1]?).bind (fun arch =>
    (arch.chunks[loc.2.1]?).bind (fun chunk => chunk.entities[loc.2.2]?))

/-- entityAtIn applied to a world. -/
def entityAt (w : World) (loc : Nat × Nat × Nat) : Option Entity :=
  entityAtIn w.archetypes loc

/-- Location consistency as rendered in spec.md section 8: for every entity
the world claims alive, an entry in the entity index implies that the
chunk's entity column holds that entity at the recorded slot.
(The implication form is the spec's own formalisation; the allocator counts
a freed-and-not-yet-reissued slot's next version as alive before any entity
carries it, so an alive handle need not be in the index.) -/
def LocationConsistent (w : World) : Prop :=
  ∀ e loc, w.isAlive e = true → mapLookup w.entityMap e = some loc →
    entityAt w loc = some e

/-- A fresh world of a fresh universe. -/
def newWorld : World := ⟨⟨[], []⟩, ⟨0, []⟩, [], []⟩

/-- ChunkFilter of SharedDataValueFilter (src/src/query.rs):
`chunk.shared_component::<T>().map_or(false, |s| s == value)`. -/
def sharedDataValueFilter (t v : Nat) (c : Chunk) : Bool :=
  ((c.sharedValue t).map (fun s => s == v)).getD false

/-- ArchetypeFilter of EntityDataFilter (src/src/query.rs): the archetype
has the viewed component. -/
def entityDataFilter (t : Nat) (a : Archetype) : Bool := a.hasComponent t

/-- Query::into_chunks (src/src/query.rs): the archetypes passing the
archetype filter, their chunks flattened in order, filtered by the chunk
filter. -/
def intoChunks (w : World) (af : Archetype → Bool) (cf : Chunk → Bool) : List Chunk :=
  ((w.archetypes.filter af).flatMap Archetype.chunks).filter cf

/-- The fetch of the Read view (src/src/query.rs): the viewed component
column of the chunk; the source unwraps the column, whose presence the
view's default filter guarantees, so an absent column is modelled as the
empty iterator. -/
def fetchColumn (t : Nat) (c : Chunk) : List Nat := (c.lookupColumn t).getD []

/-- Query::into_data for the Read view. -/
def intoData (w : World) (t : Nat) (af : Archetype → Bool) (cf : Chunk → Bool) : List Nat :=
  (intoChunks w af cf).flatMap (fetchColumn t)

/-- Query::into_data_with_entities for the Read view: per qualifying chunk,
the entity column zipped with the fetched column. -/
def intoDataWithEntities (w : World) (t : Nat) (af : Archetype → Bool) (cf : Chunk → Bool) :
    List (Entity × Nat) :=
  (intoChunks w af cf).flatMap (fun c => c.entities.zip (fetchColumn t c))

theorem findArchetype_spec (p : Archetype → Bool) :
    ∀ (l : List Archetype) (base i : Nat) (a : Archetype),
      findArchetype l base p = some (i, a) →
      base ≤ i ∧ i - base < l.length ∧ l[i - base]? = some a ∧ p a = true := by
  intro l
  induction l with
  | nil => intro base i a h; exact absurd h (by simp [findArchetype])
  | cons x xs ih =>
    intro base i a h
    unfold findArchetype at h
    by_cases hp : p x
    · rw [if_pos hp] at h
      simp only [Option.some.injEq, Prod.mk.injEq] at h
      obtain ⟨rfl, rfl⟩ := h
      exact ⟨le_refl _, by simp, by simp, hp⟩
    · rw [if_neg hp] at h
      obtain ⟨hle, hlt, hget, hpa⟩ := ih (base + 1) i a h
      refine ⟨by omega, by simp; omega, ?_, hpa⟩
      rw [show i - base = (i - (base + 1)) + 1 from by omega]
      simpa using hget

/-- C10: World::insert with a component source yielding zero items returns
the empty entity slice, allocates nothing, and leaves the entity index, the
allocator blocks, the shared block allocator and every existing archetype
unchanged --- though it may append one fresh (still empty) archetype as a
side effect of resolving the target archetype. -/
theorem insert_empty_source (w : World) (svals : List (Nat × Nat)) (ctypes : List Nat)
    (es : List Entity) (w2 : World)
    (h : w.insert svals ctypes [] = some (es, w2)) :
    es = [] ∧ w2.entityMap = w.entityMap ∧ w2.allocator.blocks = w.allocator.blocks ∧
      w2.blockAlloc = w.blockAlloc ∧
      w2.archetypes.take w.archetypes.length = w.archetypes := by
  unfold World.insert at h
  dsimp only at h
  rcases hf : findArchetype w.archetypes 0 (fun a =>
      typeSetMatch a.componentTypes ctypes && typeSetMatch a.sharedTypes (svals.map Prod.fst))
    with _ | p <;> rw [hf] at h <;>
    simp only [insertLoop, Option.map_some', Option.some.injEq, Prod.mk.injEq] at h
  · obtain ⟨rfl, rfl⟩ := h
    refine ⟨rfl, rfl, rfl, rfl, ?_⟩
    dsimp only
    have hset : (w.archetypes ++
          [(⟨ctypes, svals.map Prod.fst, []⟩ : Archetype)]).set w.archetypes.length
          ⟨ctypes, svals.map Prod.fst, []⟩ =
        w.archetypes ++ [(⟨ctypes, svals.map Prod.fst, []⟩ : Archetype)] := by
      apply List.ext_getElem?
      intro n
      by_cases hn : n = w.archetypes.length
      · subst hn
        rw [List.getElem?_set_self (by simp)]
        rw [List.getElem?_append_right (le_refl _)]
        simp
      · rw [List.getElem?_set_ne (fun hx => hn hx.symm)]
    rw [hset, List.take_left]
  · obtain ⟨rfl, rfl⟩ := h
    obtain ⟨-, hlt, hget, -⟩ := findArchetype_spec _ w.archetypes 0 p.1 p.2 hf
    simp only [Nat.sub_zero] at hlt hget
    refine ⟨rfl, rfl, rfl, rfl, ?_⟩
    dsimp only
    have hset : w.archetypes.set p.1 p.2 = w.archetypes := by
      apply List.ext_getElem?
      intro n
      by_cases hn : n = p.1
      · subst hn
        rw [List.getElem?_set_self hlt]
        exact hget.symm
      · rw [List.getElem?_set_ne (fun hx => hn hx.symm)]
    rw [hset, List.take_length]

/-- The world produced by an empty-source insert on a fresh world: one fresh
empty archetype, nothing else. -/
def emptyInsertWorld : World := ⟨⟨[], []⟩, ⟨0, []⟩, [⟨[0], [10], []⟩], []⟩

/-- Witness for the empty-source insert theorem, on a fresh world with
component type 0 and shared type 10. -/
theorem insert_empty_source_witness :
    ([] : List Entity) = [] ∧ emptyInsertWorld.entityMap = newWorld.entityMap ∧
      emptyInsertWorld.allocator.blocks = newWorld.allocator.blocks ∧
      emptyInsertWorld.blockAlloc = newWorld.blockAlloc ∧
      emptyInsertWorld.archetypes.take newWorld.archetypes.length = newWorld.archetypes :=
  insert_empty_source newWorld [(10, 1)] [0] [] emptyInsertWorld (by decide)

/-- Component and shared type ids of the concrete scenarios: Pos is
component type 0, Model is shared type 10. -/
def posT : Nat := 0

/-- Shared type id of Model. -/
def modelT : Nat := 10

/-- The S4 world: two entities with shared Model=1 and Pos payloads 11,12;
two with shared Model=2 and Pos payloads 21,22; one with no shared data and
Pos payload 31 (its chunk lacks the Model shared type entirely). -/
def s4World : Option World :=
  (newWorld.insert [(modelT, 1)] [posT] [[11], [12]]).bind (fun r1 =>
    (r1.2.insert [(modelT, 2)] [posT] [[21], [22]]).bind (fun r2 =>
      (r2.2.insert [] [posT] [[31]]).map (fun r3 => r3.2)))

/-- C9: the query Read<Pos> restricted with with_shared_data_value(&Model(1))
--- archetype filter EntityDataFilter<Pos>, chunk filter
And(Passthrough, SharedDataValueFilter(Model, 1)) --- yields exactly the two
Pos values inserted under Model(1); the chunk whose Model value is 2 and the
chunk lacking the Model shared type entirely are excluded. -/
theorem shared_value_filter_selects :
    s4World.map (fun w => intoData w posT (entityDataFilter posT)
      (fun c => true && sharedDataValueFilter modelT 1 c)) = some [11, 12] := by
  decide

/-- The delete-middle world of C4: three entities carrying Pos payloads
10, 20, 30 in a single chunk. -/
def deleteMiddleWorld : Option World :=
  (newWorld.insert [] [posT] [[10], [20], [30]]).map (fun r => r.2)

/-- C4 at its failing input: deleting the middle entity (1,1) reports true
and the handle is no longer alive, yet component<Pos> for the deleted handle
returns some 30 --- the payload of the tail entity that was swapped into its
slot --- instead of the absent sentinel None, because World::delete never
removes the deleted entity's entry from the location index. -/
theorem component_after_delete_returns_stale :
    deleteMiddleWorld.map (fun w =>
      ((w.delete ⟨1, 1⟩).1,
       (w.delete ⟨1, 1⟩).2.component posT ⟨1, 1⟩,
       (w.delete ⟨1, 1⟩).2.isAlive ⟨1, 1⟩)) = some (true, some 30, false) := by
  decide

theorem flatMap_congr_mem {α β : Type} (l : List α) (f g : α → List β)
    (h : ∀ a ∈ l, f a = g a) : l.flatMap f = l.flatMap g := by
  induction l with
  | nil => rfl
  | cons x xs ih =>
    simp only [List.flatMap_cons, h x (List.mem_cons_self x xs),
      ih (fun a ha => h a (List.mem_cons_of_mem x ha))]

theorem filter_flatMap_comm {α β : Type} (l : List α) (f : α → List β) (p : β → Bool) :
    (l.flatMap f).filter p = l.flatMap (fun a => (f a).filter p) := by
  induction l with
  | nil => rfl
  | cons a l ih => simp [ih, List.filter_append]

theorem fetchColumn_length (w : World) (t : Nat) (af : Archetype → Bool) (cf : Chunk → Bool)
    (hwf : ∀ a ∈ w.archetypes, ∀ c ∈ a.chunks,
      c.columns.map Prod.fst = a.componentTypes ∧
        ∀ p ∈ c.columns, p.2.length = c.entities.length)
    (hview : ∀ a, af a = true → a.hasComponent t = true) :
    ∀ c ∈ intoChunks w af cf, (fetchColumn t c).length = c.entities.length := by
  intro c hc
  unfold intoChunks at hc
  obtain ⟨hcf, hc⟩ := And.intro (List.mem_filter.mp hc).2 (List.mem_filter.mp hc).1
  obtain ⟨a, ha, hca⟩ := List.mem_flatMap.mp hc
  obtain ⟨haw, haf⟩ := List.mem_filter.mp ha
  obtain ⟨hcols, hpar⟩ := hwf a haw c hca
  have htmem : t ∈ c.columns.map Prod.fst := by
    rw [hcols]
    have := hview a haf
    unfold Archetype.hasComponent at this
    simpa using this
  obtain ⟨p, hpmem, hpt⟩ := List.mem_map.mp htmem
  have hfind : (c.columns.find? (fun q => q.1 == t)).isSome := by
    rw [List.find?_isSome]
    exact ⟨p, hpmem, by simp [hpt]⟩
  rcases hf : c.columns.find? (fun q => q.1 == t) with _ | q
  · rw [hf] at hfind
    exact absurd hfind (by simp)
  · have hqmem := List.mem_of_find?_eq_some hf
    unfold fetchColumn Chunk.lookupColumn
    rw [hf]
    simpa using hpar q hqmem

/-- C2: iterating a query visits exactly the entities lying in a chunk
passing the chunk filter inside an archetype passing the archetype filter,
in (archetype insertion order) x (chunk insertion order) x (slot order
within chunk) with no other reordering.  Hypotheses: every chunk of the
world carries exactly its archetype's component types as columns, all of
entity-column length (the spec's column-length-parity invariant), and the
archetype filter entails presence of the viewed component (every query built
from a Read<T> view conjoins EntityDataFilter<T> by construction). -/
theorem query_iteration_exact (w : World) (t : Nat) (af : Archetype → Bool) (cf : Chunk → Bool)
    (hwf : ∀ a ∈ w.archetypes, ∀ c ∈ a.chunks,
      c.columns.map Prod.fst = a.componentTypes ∧
        ∀ p ∈ c.columns, p.2.length = c.entities.length)
    (hview : ∀ a, af a = true → a.hasComponent t = true) :
    (intoDataWithEntities w t af cf).map Prod.fst =
      (w.archetypes.filter af).flatMap (fun a => (a.chunks.filter cf).flatMap Chunk.entities) ∧
    ∀ e : Entity, (e ∈ (intoDataWithEntities w t af cf).map Prod.fst ↔
      ∃ a ∈ w.archetypes, af a = true ∧ ∃ c ∈ a.chunks, cf c = true ∧ e ∈ c.entities) := by
  have hlen := fetchColumn_length w t af cf hwf hview
  have hmain : (intoDataWithEntities w t af cf).map Prod.fst =
      (w.archetypes.filter af).flatMap (fun a => (a.chunks.filter cf).flatMap Chunk.entities) := by
    unfold intoDataWithEntities
    rw [List.map_flatMap]
    rw [flatMap_congr_mem _ _ (fun c => c.entities)
      (fun c hc => List.map_fst_zip _ _ (le_of_eq (hlen c hc).symm))]
    unfold intoChunks
    rw [filter_flatMap_comm, List.flatMap_assoc]
  refine ⟨hmain, ?_⟩
  intro e
  rw [hmain]
  constructor
  · intro h
    obtain ⟨a, ha, hca⟩ := List.mem_flatMap.mp h
    obtain ⟨haw, haf⟩ := List.mem_filter.mp ha
    obtain ⟨c, hc, hec⟩ := List.mem_flatMap.mp hca
    obtain ⟨hcc, hcf⟩ := List.mem_filter.mp hc
    exact ⟨a, haw, haf, c, hcc, hcf, hec⟩
  · intro h
    obtain ⟨a, haw, haf, c, hcc, hcf, hec⟩ := h
    exact List.mem_flatMap.mpr ⟨a, List.mem_filter.mpr ⟨haw, haf⟩,
      List.mem_flatMap.mpr ⟨c, List.mem_filter.mpr ⟨hcc, hcf⟩, hec⟩⟩

/-- Witness for the query-iteration theorem: a one-archetype, one-chunk
world holding a single entity with one component of type 0, queried by
Read of type 0 with a passthrough chunk filter. -/
def c2WitnessWorld : World :=
  ⟨⟨[⟨0, 1024, [1], []⟩], []⟩, ⟨1024, []⟩,
   [⟨[0], [], [⟨[⟨0, 1⟩], [(0, [5])], [], 1024⟩]⟩], [(⟨0, 1⟩, (0, 0, 0))]⟩

theorem query_iteration_exact_witness :
    (intoDataWithEntities c2WitnessWorld 0 (entityDataFilter 0) (fun _ => true)).map Prod.fst =
      (c2WitnessWorld.archetypes.filter (entityDataFilter 0)).flatMap
        (fun a => (a.chunks.filter (fun _ => true)).flatMap Chunk.entities) ∧
    ∀ e : Entity,
      (e ∈ (intoDataWithEntities c2WitnessWorld 0 (entityDataFilter 0)
          (fun _ => true)).map Prod.fst ↔
        ∃ a ∈ c2WitnessWorld.archetypes, entityDataFilter 0 a = true ∧
          ∃ c ∈ a.chunks, (fun _ : Chunk => true) c = true ∧ e ∈ c.entities) :=
  query_iteration_exact c2WitnessWorld 0 (entityDataFilter 0) (fun _ => true)
    (by decide) (fun a h => h)

/-- The access declarations a SystemBuilder accumulates for a system
(src/src/system.rs, `SystemAccess` filled by read_resource / write_resource
/ read_component / write_component): resource and component type ids the
system declares to read and to write. -/
structure SystemSpec where
  resourceReads : List Nat
  resourceWrites : List Nat
  componentReads : List Nat
  componentWrites : List Nat
deriving DecidableEq

/-- `Schedulable::reads` of System (src/src/system.rs lines 484-486): the
declared resource reads. -/
def schedResourceReads (s : SystemSpec) : List Nat := s.resourceReads

/-- `Schedulable::writes` of System (src/src/system.rs lines 487-489): the
source returns `(&self.access.resources.reads, &self.access.components.reads)`
--- the reads lists --- so the declared resource writes are never surfaced
to the executor. -/
def schedResourceWrites (s : SystemSpec) : List Nat := s.resourceReads

/-- HashSet::insert on a list kept deduplicated. -/
def insertDedup (n : Nat) (l : List Nat) : List Nat := if n ∈ l then l else n :: l

/-- The dependancies set of StageExecutor::new for one system: the recorded
last mutator of every resource in the system's read list, then of every
resource in its (executor-visible) write list. -/
def depsOf (reads writes : List Nat) (lastMut : List (Nat × Nat)) : List Nat :=
  let afterReads := reads.foldl (fun acc r =>
    match (lastMut.find? (fun p => p.1 == r)).map (fun p => p.2) with
    | some n => insertDedup n acc
    | none => acc) []
  writes.foldl (fun acc r =>
    match (lastMut.find? (fun p => p.1 == r)).map (fun p => p.2) with
    | some n => insertDedup n acc
    | none => acc) afterReads

/-- `resource_last_mutated.insert(*res, i)` for each executor-visible
written resource. -/
def recordWrites (i : Nat) (writes : List Nat) (lastMut : List (Nat × Nat)) :
    List (Nat × Nat) :=
  writes.foldl (fun m r => (r, i) :: m) lastMut

/-- The static-resource-dependency pass of StageExecutor::new
(src/src/system.rs lines 57-77): for system i in order, its static
dependency count is the size of its dependancies set and i is pushed onto
static_dependants of each member; its writes then update
resource_last_mutated. -/
def stageScan : List SystemSpec → Nat → List (Nat × Nat) → List (List Nat) → List Nat →
    List (List Nat) × List Nat
  | [], _, _, dependants, counts => (dependants, counts)
  | s :: rest, i, lastMut, dependants, counts =>
    let deps := depsOf (schedResourceReads s) (schedResourceWrites s) lastMut
    stageScan rest (i + 1) (recordWrites i (schedResourceWrites s) lastMut)
      (deps.foldl (fun d n => d.set n ((d.getD n []) ++ [i])) dependants)
      (counts ++ [deps.length])

/-- StageExecutor::new (src/src/system.rs lines 46-127), static resource
part: with at most one system every vector is empty; otherwise run the scan
over the systems in user order.  Returns (static_dependants,
static_dependancy_counts). -/
def buildStaticGraph (systems : List SystemSpec) : List (List Nat) × List Nat :=
  if systems.length ≤ 1 then ([], [])
  else stageScan systems 0 [] (systems.map (fun _ => [])) []

/-- The C7 claim as stated over the embedded scheduler: a declared
write-then-read pair with no intervening declared writer yields a static
edge, counted at the reader. -/
def StaticEdgeClaim : Prop :=
  ∀ (systems : List SystemSpec) (i j r : Nat) (si sj : SystemSpec),
    systems[i]? = some si → systems[j]? = some sj → i < j →
    r ∈ si.resourceWrites → r ∈ sj.resourceReads →
    (∀ k sk, i < k → k < j → systems[k]? = some sk → r ∉ sk.resourceWrites) →
    j ∈ (buildStaticGraph systems).1.getD i [] ∧
      0 < (buildStaticGraph systems).2.getD j 0

/-- C7 at its failing input: system 0 declares only a write of resource 7,
system 1 declares only a read of resource 7.  Because Schedulable::writes
returns the reads list, the executor never records system 0 as the writer
of 7, so the constructed graph is empty: static_dependants = [[], []] and
both static dependency counts are 0.  The edge 0 -> 1 required by the claim
(and by the construction described in spec section 4.5) is absent. -/
theorem static_write_read_edge_missing :
    buildStaticGraph [⟨[], [7], [], []⟩, ⟨[7], [], [], []⟩] = ([[], []], [0, 0]) ∧
    ¬ (1 ∈ (buildStaticGraph [⟨[], [7], [], []⟩, ⟨[7], [], [], []⟩]).1.getD 0 []) ∧
    ¬ StaticEdgeClaim := by
  refine ⟨by decide, by decide, ?_⟩
  intro h
  have := h [⟨[], [7], [], []⟩, ⟨[7], [], [], []⟩] 0 1 7 ⟨[], [7], [], []⟩ ⟨[7], [], [], []⟩
    (by decide) (by decide) (by decide) (by decide) (by decide)
    (fun k sk h1 h2 _ => absurd h2 (by omega))
  exact absurd this.1 (by decide)

/-- Modelled from the spec: the per-cell atomic borrow counter of
crate::borrow::AtomicRefCell (borrows.rs is declared by lib.rs but absent
from src/; spec sections 4.4 and 5): a count of live shared borrows plus an
exclusive flag.  A shared acquisition succeeds unless an exclusive borrow is
live; an exclusive acquisition succeeds only when no borrow of either kind
is live; a conflicting acquisition panics, modelled as none. -/
structure BorrowCell where
  readers : Nat
  writer : Bool
deriving DecidableEq

/-- Shared borrow acquisition (Resources::get). -/
def BorrowCell.acquireRead (c : BorrowCell) : Option BorrowCell :=
  if c.writer then none else some { c with readers := c.readers + 1 }

/-- Exclusive borrow acquisition (Resources::get_mut). -/
def BorrowCell.acquireWrite (c : BorrowCell) : Option BorrowCell :=
  if c.writer || decide (0 < c.readers) then none else some { c with writer := true }

/-- Modelled from the spec (section 4.4: the guard releases on drop):
dropping a shared guard decrements the cell's reader count. -/
def BorrowCell.releaseRead (c : BorrowCell) : BorrowCell :=
  { c with readers := c.readers - 1 }

/-- Modelled from the spec (section 4.4): dropping an exclusive guard clears
the cell's exclusive flag. -/
def BorrowCell.releaseWrite (c : BorrowCell) : BorrowCell :=
  { c with writer := false }

/-- ResourceSet::fetch of ReadWrapper / WriteWrapper (src/src/resource.rs
lines 143-158): resolve the cell stored for the resource type id and acquire
the matching borrow (`resources.get::<T>().unwrap()` /
`resources.get_mut::<T>().unwrap()`; the unwrap of an absent resource and
the borrow-counter panic on a conflicting acquisition are modelled none).
The guard is a local of fetch: the source takes a raw pointer out of it and
the guard drops --- releasing its borrow --- before fetch returns; only the
raw-pointer PreparedReadWrapper / PreparedWriteWrapper (lines 30-60)
escapes.  The returned cell states therefore carry no borrow from this
fetch. -/
def fetchWith (acq : BorrowCell → Option BorrowCell) (rel : BorrowCell → BorrowCell) :
    List (Nat × BorrowCell) → Nat → Option (List (Nat × BorrowCell))
  | [], _ => none
  | (k, c) :: rest, t =>
    if k = t then (acq c).map (fun c2 => (k, rel c2) :: rest)
    else (fetchWith acq rel rest t).map (fun r => (k, c) :: r)

/-- fetch for a Read descriptor: acquire the shared guard, then drop it. -/
def fetchRead (r : List (Nat × BorrowCell)) (t : Nat) : Option (List (Nat × BorrowCell)) :=
  fetchWith BorrowCell.acquireRead BorrowCell.releaseRead r t

/-- fetch for a Write descriptor: acquire the exclusive guard, then drop
it. -/
def fetchWrite (r : List (Nat × BorrowCell)) (t : Nat) : Option (List (Nat × BorrowCell)) :=
  fetchWith BorrowCell.acquireWrite BorrowCell.releaseWrite r t

/-- The C8 claim as stated: a conflicting second fetch on the state a first
fetch returned fails with the borrow-counter panic (write-write, write-read
and read-write). -/
def ConflictingFetchClaim : Prop :=
  ∀ (t : Nat) (r r2 : List (Nat × BorrowCell)),
    (fetchWrite r t = some r2 → fetchWrite r2 t = none ∧ fetchRead r2 t = none) ∧
    (fetchRead r t = some r2 → fetchWrite r2 t = none)

/-- C8: the source does not prevent conflicting fetches.  The Ref/RefMut
guard acquired inside ResourceSet::fetch is dropped --- its borrow released
--- before fetch returns, and only a raw-pointer Prepared wrapper escapes,
so the state a fetch returns carries no borrow: on a single unborrowed cell
a write fetch succeeds and leaves the cell unborrowed, a second write (or
read) fetch succeeds as well, and two conflicting handles are silently
produced; the claimed panic never happens. -/
theorem conflicting_fetch_not_prevented :
    fetchWrite [(0, ⟨0, false⟩)] 0 = some [(0, ⟨0, false⟩)] ∧
      fetchRead [(0, ⟨0, false⟩)] 0 = some [(0, ⟨0, false⟩)] ∧
      ¬ ConflictingFetchClaim := by
  refine ⟨by decide, by decide, ?_⟩
  intro h
  exact absurd ((h 0 [(0, ⟨0, false⟩)] [(0, ⟨0, false⟩)]).1 (by decide)).1 (by decide)

/-- The stored version the first covering block holds for an index (the
version whose bump a delete of that index performs). -/
def storedVersion : List EntityBlock → Nat → Option Nat
  | [], _ => none
  | b :: bs, i => if b.covers i then b.versions.get? (i - b.start) else storedVersion bs i

/-- The one handle that a delete at e can make alive: e's index carrying the
bumped stored version. -/
def resurrectTarget (w : World) (e : Entity) : Entity :=
  ⟨e.index, ((storedVersion w.allocator.blocks e.index).getD 0 + 1) % 65536⟩

theorem isAlive_bumpPush (b : EntityBlock) (i : Nat) (f : Entity) (hc : b.covers i = true) :
    (b.bumpPush i).isAlive f =
      if f.index = i then
        some ((b.versions.getD (i - b.start) 0 + 1) % 65536 == f.version)
      else b.isAlive f := by
  unfold EntityBlock.covers at hc
  simp only [Bool.and_eq_true, decide_eq_true_eq] at hc
  obtain ⟨hsi, hji⟩ := hc
  unfold EntityBlock.bumpPush EntityBlock.isAlive
  by_cases hfi : f.index = i
  · subst hfi
    rw [if_pos rfl, if_pos hsi]
    dsimp only
    rw [List.get?_eq_getElem?, List.getElem?_set_self hji]
    rfl
  · rw [if_neg hfi]
    dsimp only
    by_cases hsf : b.start ≤ f.index
    · rw [if_pos hsf, if_pos hsf]
      rw [List.get?_eq_getElem?, List.get?_eq_getElem?,
        List.getElem?_set_ne (by omega : i - b.start ≠ f.index - b.start)]
    · rw [if_neg hsf, if_neg hsf]

theorem alive_after_bump (i : Nat) (f : Entity) : ∀ l : List EntityBlock,
    (aliveFromBlocks (bumpPushFirstCovering l i) f).getD false = true →
    ((aliveFromBlocks l f).getD false = true ∧ f.index ≠ i) ∨
    (f.index = i ∧ ∃ v, storedVersion l i = some v ∧ f.version = (v + 1) % 65536) := by
  intro l
  induction l with
  | nil => intro h; exact absurd h (by simp [bumpPushFirstCovering, aliveFromBlocks])
  | cons b bs ih =>
    intro h
    unfold bumpPushFirstCovering at h
    by_cases hc : b.covers i
    · rw [if_pos hc] at h
      unfold aliveFromBlocks at h
      rw [isAlive_bumpPush b i f hc] at h
      by_cases hfi : f.index = i
      · rw [if_pos hfi] at h
        simp only [Option.getD_some] at h
        right
        refine ⟨hfi, b.versions.getD (i - b.start) 0, ?_, ?_⟩
        · unfold storedVersion
          rw [if_pos hc]
          unfold EntityBlock.covers at hc
          simp only [Bool.and_eq_true, decide_eq_true_eq] at hc
          rw [List.get?_eq_getElem?, List.getElem?_eq_getElem hc.2,
            List.getD_eq_getElem _ _ hc.2]
        · exact (by simpa using h :
            (b.versions.getD (i - b.start) 0 + 1) % 65536 = f.version).symm
      · rw [if_neg hfi] at h
        rcases ha : b.isAlive f with _ | r <;> rw [ha] at h
        · left
          refine ⟨?_, hfi⟩
          unfold aliveFromBlocks
          rw [ha]
          exact h
        · left
          refine ⟨?_, hfi⟩
          unfold aliveFromBlocks
          rw [ha]
          exact h
    · rw [if_neg hc] at h
      unfold aliveFromBlocks at h
      rcases ha : b.isAlive f with _ | r <;> rw [ha] at h
      · rcases ih h with ⟨h1, h2⟩ | ⟨h1, v, h2, h3⟩
        · left
          refine ⟨?_, h2⟩
          unfold aliveFromBlocks
          rw [ha]
          exact h1
        · right
          refine ⟨h1, v, ?_, h3⟩
          unfold storedVersion
          rw [if_neg hc]
          exact h2
      · left
        have hcov : b.covers f.index = true := by
          have := isAlive_answers_iff_covers b f
          rw [ha] at this
          simpa using this.symm
        refine ⟨?_, ?_⟩
        · unfold aliveFromBlocks
          rw [ha]
          exact h
        · intro heq
          rw [heq] at hcov
          rw [hcov] at hc
          exact hc rfl

theorem lt_of_getElem?_eq_some {α : Type} {l : List α} {n : Nat} {a : α}
    (h : l[n]? = some a) : n < l.length := by
  by_contra hc
  rw [List.getElem?_eq_none (Nat.le_of_not_lt hc)] at h
  exact Option.noConfusion h

theorem swapRemove_getElem? {α : Type} (l : List α) (i s : Nat) (hi : i < l.length) :
    (swapRemove l i)[s]? =
      if s + 1 < l.length then (if s = i then l[l.length - 1]? else l[s]?) else none := by
  obtain ⟨last, hlast⟩ : ∃ last, l.getLast? = some last := by
    rcases hl : l.getLast? with _ | x
    · rw [List.getLast?_eq_none_iff] at hl
      subst hl
      simp at hi
    · exact ⟨x, rfl⟩
  unfold swapRemove
  rw [hlast]
  dsimp only
  rw [List.dropLast_eq_take, List.length_set]
  by_cases hs : s + 1 < l.length
  · rw [if_pos hs, List.getElem?_take_of_lt (by omega)]
    by_cases hsi : s = i
    · subst hsi
      rw [if_pos rfl, List.getElem?_set_self hi]
      rw [List.getLast?_eq_getElem?] at hlast
      exact hlast.symm
    · rw [if_neg hsi, List.getElem?_set_ne (fun hx => hsi hx.symm)]
  · rw [if_neg hs]
    apply List.getElem?_eq_none
    rw [List.length_take, List.length_set]
    omega

theorem removeSlot_entities_getElem? (c : Chunk) (slot s : Nat)
    (hs : slot < c.entities.length) :
    (c.removeSlot slot).2.entities[s]? =
      if s + 1 < c.entities.length then
        (if s = slot then c.entities[c.entities.length - 1]? else c.entities[s]?)
      else none := by
  unfold Chunk.removeSlot
  rw [if_pos hs]
  exact swapRemove_getElem? c.entities slot s hs

theorem removeSlot_moved (c : Chunk) (slot : Nat) (hs : slot < c.entities.length) :
    (c.removeSlot slot).1 =
      if slot + 1 = c.entities.length then none
      else c.entities[c.entities.length - 1]? := by
  unfold Chunk.removeSlot
  rw [if_pos hs]
  dsimp only
  by_cases h : slot + 1 = c.entities.length
  · rw [if_pos h, if_pos h]
  · rw [if_neg h, if_neg h, List.getLast?_eq_getElem?]

theorem mapLookup_cons (key : Entity) (v : Nat × Nat × Nat)
    (m : List (Entity × (Nat × Nat × Nat))) (f : Entity) :
    mapLookup ((key, v) :: m) f = if key = f then some v else mapLookup m f := by
  unfold mapLookup
  by_cases h : key = f
  · subst h
    rw [if_pos rfl, List.find?_cons_of_pos _ (by simp)]
    rfl
  · rw [if_neg h, List.find?_cons_of_neg _ (by simpa using h)]

theorem entityAt_moved_after_remove (archetypes : List Archetype)
    (loc : Nat × Nat × Nat) (arch : Archetype) (chunk : Chunk) (m : Entity)
    (harch : archetypes[loc.1]? = some arch)
    (hchunk : arch.chunks[loc.2.1]? = some chunk)
    (hslot : loc.2.2 < chunk.entities.length)
    (hm : (chunk.removeSlot loc.2.2).1 = some m) :
    entityAtIn (archetypes.set loc.1
      { arch with chunks := arch.chunks.set loc.2.1 (chunk.removeSlot loc.2.2).2 }) loc =
      some m := by
  have hb1 := lt_of_getElem?_eq_some harch
  have hb2 := lt_of_getElem?_eq_some hchunk
  unfold entityAtIn
  rw [List.getElem?_set_self hb1, Option.some_bind, List.getElem?_set_self hb2,
    Option.some_bind]
  rw [removeSlot_moved chunk loc.2.2 hslot] at hm
  by_cases hend : loc.2.2 + 1 = chunk.entities.length
  · rw [if_pos hend] at hm
    exact Option.noConfusion hm
  · rw [if_neg hend] at hm
    rw [removeSlot_entities_getElem? chunk loc.2.2 loc.2.2 hslot,
      if_pos (by omega), if_pos rfl]
    exact hm

theorem entityAt_preserved_after_remove (archetypes : List Archetype)
    (loc : Nat × Nat × Nat) (arch : Archetype) (chunk : Chunk)
    (harch : archetypes[loc.1]? = some arch)
    (hchunk : arch.chunks[loc.2.1]? = some chunk)
    (f : Entity) (loc2 : Nat × Nat × Nat)
    (hne_e : chunk.entities[loc.2.2]? ≠ some f)
    (hne_m : (chunk.removeSlot loc.2.2).1 ≠ some f)
    (hold : entityAtIn archetypes loc2 = some f) :
    entityAtIn (archetypes.set loc.1
      { arch with chunks := arch.chunks.set loc.2.1 (chunk.removeSlot loc.2.2).2 }) loc2 =
      some f := by
  unfold entityAtIn at hold ⊢
  rcases h1 : archetypes[loc2.1]? with _ | archf <;> rw [h1] at hold
  · exact absurd hold (by simp)
  rw [Option.some_bind] at hold
  rcases h2 : archf.chunks[loc2.2.1]? with _ | chunkf <;> rw [h2] at hold
  · exact absurd hold (by simp)
  rw [Option.some_bind] at hold
  by_cases hL1 : loc2.1 = loc.1
  · rw [hL1, List.getElem?_set_self (lt_of_getElem?_eq_some harch), Option.some_bind]
    have harchf : archf = arch := by
      rw [hL1] at h1
      rw [h1] at harch
      injection harch
    subst harchf
    by_cases hL2 : loc2.2.1 = loc.2.1
    · rw [hL2, List.getElem?_set_self (lt_of_getElem?_eq_some hchunk), Option.some_bind]
      have hchunkf : chunkf = chunk := by
        rw [hL2] at h2
        rw [h2] at hchunk
        injection hchunk
      rw [hchunkf] at hold
      have hs2 : loc2.2.2 < chunk.entities.length := lt_of_getElem?_eq_some hold
      have hslot : loc.2.2 < chunk.entities.length ∨ chunk.entities.length ≤ loc.2.2 :=
        Nat.lt_or_ge _ _
      rcases hslot with hslot | hslot
      · have hne_slot : loc2.2.2 ≠ loc.2.2 := by
          intro hx
          rw [hx] at hold
          exact hne_e hold
        have hne_tail : loc2.2.2 + 1 ≠ chunk.entities.length := by
          intro hx
          rw [removeSlot_moved chunk loc.2.2 hslot] at hne_m
          by_cases hend : loc.2.2 + 1 = chunk.entities.length
          · exact hne_slot (by omega)
          · rw [if_neg hend] at hne_m
            rw [show chunk.entities.length - 1 = loc2.2.2 from by omega] at hne_m
            exact hne_m hold
        rw [removeSlot_entities_getElem? chunk loc.2.2 loc2.2.2 hslot,
          if_pos (by omega), if_neg hne_slot]
        exact hold
      · unfold Chunk.removeSlot
        rw [if_neg (by omega)]
        exact hold
    · rw [List.getElem?_set_ne (fun hx => hL2 hx.symm), h2, Option.some_bind]
      exact hold
  · rw [List.getElem?_set_ne (fun hx => hL1 hx.symm), h1, Option.some_bind, h2,
      Option.some_bind]
    exact hold

theorem delete_preserves_location (w : World) (e : Entity)
    (hinv : LocationConsistent w)
    (hres : mapLookup w.entityMap (resurrectTarget w e) = none) :
    LocationConsistent (w.delete e).2 := by
  have halloc : (w.allocator.deleteEntity e).2.blocks =
      bumpPushFirstCovering w.allocator.blocks e.index := by
    unfold EntityAllocator.deleteEntity
    rw [deleteFromBlocks_eq]
  have haliveStep : ∀ f : Entity,
      EntityAllocator.isAlive (w.allocator.deleteEntity e).2 f = true →
      (w.allocator.isAlive f = true ∧ f.index ≠ e.index) ∨ f = resurrectTarget w e := by
    intro f hf
    unfold EntityAllocator.isAlive at hf
    rw [halloc] at hf
    rcases alive_after_bump e.index f w.allocator.blocks hf with ⟨h1, h2⟩ | ⟨h1, v, h2, h3⟩
    · exact Or.inl ⟨h1, h2⟩
    · right
      unfold resurrectTarget
      rw [h2]
      cases f
      simp only [Option.getD_some] at h1 h3 ⊢
      rw [h1, h3]
  have hsimple : LocationConsistent { w with allocator := (w.allocator.deleteEntity e).2 } := by
    intro f loc2 ha hl
    rcases haliveStep f ha with ⟨hold, -⟩ | hresf
    · exact hinv f loc2 hold hl
    · rw [hresf] at hl
      rw [hres] at hl
      exact Option.noConfusion hl
  unfold World.delete
  dsimp only
  by_cases hd1 : (w.allocator.deleteEntity e).1 = true
  · rw [if_pos hd1]
    rcases hlk : mapLookup w.entityMap e with _ | loc
    · exact hsimple
    · dsimp only
      rcases harch : w.archetypes[loc.1]? with _ | arch
      · exact hsimple
      · dsimp only
        rcases hchunk : arch.chunks[loc.2.1]? with _ | chunk
        · exact hsimple
        · dsimp only
          have he_alive : w.allocator.isAlive e = true := by
            unfold EntityAllocator.deleteEntity at hd1
            rw [deleteFromBlocks_eq] at hd1
            exact hd1
          have hacc := hinv e loc he_alive hlk
          unfold entityAt entityAtIn at hacc
          rw [harch, Option.some_bind, hchunk, Option.some_bind] at hacc
          have hslot : loc.2.2 < chunk.entities.length := lt_of_getElem?_eq_some hacc
          rcases hrc : (chunk.removeSlot loc.2.2).1 with _ | m
          · intro f loc2 ha hl
            rcases haliveStep f ha with ⟨hold, hne_idx⟩ | hresf
            · have hlold : mapLookup w.entityMap f = some loc2 := hl
              have hold2 := hinv f loc2 hold hlold
              refine entityAt_preserved_after_remove w.archetypes loc arch chunk harch
                hchunk f loc2 ?_ ?_ hold2
              · rw [hacc]
                intro hx
                injection hx with hx
                exact hne_idx (congrArg Entity.index hx.symm)
              · rw [hrc]
                exact fun hx => Option.noConfusion hx
            · rw [hresf] at hl
              have hl2 : mapLookup w.entityMap (resurrectTarget w e) = some loc2 := hl
              rw [hres] at hl2
              exact Option.noConfusion hl2
          · intro f loc2 ha hl
            have hl2 : mapLookup ((m, loc) :: w.entityMap) f = some loc2 := hl
            rw [mapLookup_cons] at hl2
            by_cases hmf : m = f
            · rw [if_pos hmf] at hl2
              injection hl2 with hl2
              subst hl2
              subst hmf
              exact entityAt_moved_after_remove w.archetypes loc arch chunk m harch
                hchunk hslot hrc
            · rw [if_neg hmf] at hl2
              rcases haliveStep f ha with ⟨hold, hne_idx⟩ | hresf
              · have hold2 := hinv f loc2 hold hl2
                refine entityAt_preserved_after_remove w.archetypes loc arch chunk harch
                  hchunk f loc2 ?_ ?_ hold2
                · rw [hacc]
                  intro hx
                  injection hx with hx
                  exact hne_idx (congrArg Entity.index hx.symm)
                · rw [hrc]
                  intro hx
                  injection hx with hx
                  exact hmf hx
              · rw [hresf] at hl2
                rw [hres] at hl2
                exact Option.noConfusion hl2
  · rw [if_neg hd1]
    exact hsimple

/-- Structural sanity of an allocator's initialised blocks, true of every
block the system mints: occupancy within capacity and a range that fits the
u16 index space (starts are `allocated % 65536` with `allocated` a multiple
of 1024, so `start + 1024 ≤ 65536`). -/
def BlocksSane (blocks : List EntityBlock) : Prop :=
  ∀ b ∈ blocks, b.versions.length ≤ b.len ∧ b.start + b.len ≤ 65536

theorem aliveFromBlocks_append (l1 l2 : List EntityBlock) (f : Entity) :
    aliveFromBlocks (l1 ++ l2) f =
      match aliveFromBlocks l1 f with
      | some r => some r
      | none => aliveFromBlocks l2 f := by
  induction l1 with
  | nil => simp [aliveFromBlocks]
  | cons b bs ih =>
    rcases h : b.isAlive f with _ | r
    · simp only [List.cons_append, aliveFromBlocks, h]
      exact ih
    · simp only [List.cons_append, aliveFromBlocks, h]

theorem allocate_isAlive_step (b : EntityBlock) (e2 : Entity) (b2 : EntityBlock)
    (h : b.allocate = some (e2, b2))
    (hsane : b.versions.length ≤ b.len ∧ b.start + b.len ≤ 65536) (f : Entity) :
    (b2.isAlive f = some true → b.isAlive f = some true ∨ f = e2) ∧
      (b2.isAlive f = none → b.isAlive f = none) := by
  unfold EntityBlock.allocate at h
  rcases hfr : b.free with _ | ⟨i, rest⟩ <;> rw [hfr] at h
  · by_cases hroom : b.versions.length < b.len
    · rw [if_pos hroom] at h
      simp only [Option.some.injEq, Prod.mk.injEq] at h
      obtain ⟨he2, hb2⟩ := h
      have hstart : b.start + b.versions.length < 65536 := by omega
      have he2' : e2 = ⟨b.start + b.versions.length, 1⟩ := by
        rw [← he2, Nat.mod_eq_of_lt hstart]
      subst hb2
      constructor
      · intro halive
        unfold EntityBlock.isAlive at halive ⊢
        dsimp only at halive
        by_cases hsf : b.start ≤ f.index
        · rw [if_pos hsf] at halive ⊢
          rw [List.get?_eq_getElem?] at halive ⊢
          by_cases hidx : f.index - b.start < b.versions.length
          · rw [List.getElem?_append_left hidx] at halive
            exact Or.inl halive
          · by_cases hidx2 : f.index - b.start = b.versions.length
            · rw [List.getElem?_append_right (le_of_eq hidx2.symm), hidx2,
                Nat.sub_self] at halive
              simp only [List.getElem?_cons_zero, Option.map_some', Option.some.injEq,
                beq_iff_eq] at halive
              right
              rw [he2']
              cases f
              simp only [Entity.mk.injEq]
              dsimp only at hsf hidx2 halive
              exact ⟨by omega, halive.symm⟩
            · rw [List.getElem?_eq_none (by simp; omega)] at halive
              exact Option.noConfusion halive
        · rw [if_neg hsf] at halive
          exact Option.noConfusion halive
      · intro hnone
        unfold EntityBlock.isAlive at hnone ⊢
        dsimp only at hnone
        by_cases hsf : b.start ≤ f.index
        · rw [if_pos hsf] at hnone ⊢
          rw [List.get?_eq_getElem?] at hnone ⊢
          rcases hg : (b.versions ++ [1])[f.index - b.start]? with _ | v
          · have hlen : (b.versions ++ [1]).length ≤ f.index - b.start := by
              by_contra hc
              rw [List.getElem?_eq_getElem (Nat.lt_of_not_le hc)] at hg
              exact Option.noConfusion hg
            rw [List.getElem?_eq_none (by simp at hlen ⊢; omega)]
            rfl
          · rw [hg] at hnone
            exact Option.noConfusion hnone
        · rw [if_neg hsf]
    · rw [if_neg hroom] at h
      exact Option.noConfusion h
  · simp only [Option.some.injEq, Prod.mk.injEq] at h
    obtain ⟨-, hb2⟩ := h
    subst hb2
    exact ⟨fun hx => Or.inl hx, fun hx => hx⟩

theorem allocFromBlocks_alive :
    ∀ (l : List EntityBlock) (e2 : Entity) (l2 : List EntityBlock),
      allocFromBlocks l = some (e2, l2) → BlocksSane l →
      (∀ f, (aliveFromBlocks l2 f).getD false = true →
        (aliveFromBlocks l f).getD false = true ∨ f = e2) ∧ BlocksSane l2 := by
  intro l
  induction l with
  | nil => intro e2 l2 h; exact absurd h (by simp [allocFromBlocks])
  | cons b bs ih =>
    intro e2 l2 h hsane
    unfold allocFromBlocks at h
    rcases hrec : allocFromBlocks bs with _ | ⟨pe, pl⟩ <;> rw [hrec] at h
    · rcases hall : b.allocate with _ | ⟨qe, qb⟩ <;> rw [hall] at h
      · exact Option.noConfusion h
      · simp only [Option.some.injEq, Prod.mk.injEq] at h
        obtain ⟨he2, hl2⟩ := h
        subst hl2
        have hbsane := hsane b (List.mem_cons_self b bs)
        have hq2sane : qb.versions.length ≤ qb.len ∧ qb.start + qb.len ≤ 65536 := by
          unfold EntityBlock.allocate at hall
          rcases hfr : b.free with _ | ⟨i, rest⟩ <;> rw [hfr] at hall
          · by_cases hroom : b.versions.length < b.len
            · rw [if_pos hroom] at hall
              simp only [Option.some.injEq, Prod.mk.injEq] at hall
              rw [← hall.2]
              simp only [List.length_append, List.length_cons, List.length_nil]
              omega
            · rw [if_neg hroom] at hall
              exact Option.noConfusion hall
          · simp only [Option.some.injEq, Prod.mk.injEq] at hall
            rw [← hall.2]
            exact hbsane
        refine ⟨?_, ?_⟩
        · intro f hf
          unfold aliveFromBlocks at hf
          rcases hq : qb.isAlive f with _ | r <;> rw [hq] at hf
          · left
            unfold aliveFromBlocks
            rw [(allocate_isAlive_step b qe qb hall hbsane f).2 hq]
            exact hf
          · simp only [Option.getD_some] at hf
            subst hf
            rcases (allocate_isAlive_step b qe qb hall hbsane f).1 hq with h1 | h1
            · left
              unfold aliveFromBlocks
              rw [h1]
              rfl
            · right
              rw [h1, he2]
        · intro x hx
          rcases List.mem_cons.mp hx with hx1 | hx1
          · rw [hx1]
            exact hq2sane
          · exact hsane x (List.mem_cons_of_mem b hx1)
    · simp only [Option.some.injEq, Prod.mk.injEq] at h
      obtain ⟨he2, hl2⟩ := h
      subst hl2
      obtain ⟨hstep, hsane2⟩ := ih pe pl hrec
        (fun x hx => hsane x (List.mem_cons_of_mem b hx))
      refine ⟨?_, ?_⟩
      · intro f hf
        unfold aliveFromBlocks at hf ⊢
        rcases hb : b.isAlive f with _ | r
        · rw [hb] at hf
          rcases hstep f hf with h1 | h1
          · exact Or.inl h1
          · exact Or.inr (h1.trans he2)
        · rw [hb] at hf
          exact Or.inl hf
      · intro x hx
        rcases List.mem_cons.mp hx with hx1 | hx1
        · rw [hx1]
          exact hsane b (List.mem_cons_self b bs)
        · exact hsane2 x hx1

/-- One entity creation: every handle alive afterwards was alive before or is
the created one; block sanity, the 1024-alignment of the shared counter and
the emptiness of the shared free list are preserved. -/
theorem createEntity_alive (a : EntityAllocator) (ba : BlockAllocator)
    (r : Entity × EntityAllocator × BlockAllocator)
    (h : a.createEntity ba = some r)
    (hsane : BlocksSane a.blocks) (hdvd : 1024 ∣ ba.allocated) (hfree : ba.free = []) :
    (∀ f, r.2.1.isAlive f = true → a.isAlive f = true ∨ f = r.1) ∧
      BlocksSane r.2.1.blocks ∧ 1024 ∣ r.2.2.allocated ∧ r.2.2.free = [] := by
  unfold EntityAllocator.createEntity at h
  rcases ha : allocFromBlocks a.blocks with _ | p <;> rw [ha] at h
  · rw [show ba.allocate = (⟨ba.allocated % 65536, 1024, [], []⟩,
        { ba with allocated := ba.allocated + 1024 }) from by
      unfold BlockAllocator.allocate; rw [hfree]] at h
    dsimp only at h
    rw [show (⟨ba.allocated % 65536, 1024, [], []⟩ : EntityBlock).allocate =
        some (⟨ba.allocated % 65536, 1⟩, ⟨ba.allocated % 65536, 1024, [1], []⟩) from by
      have hlt : ba.allocated % 65536 < 65536 := Nat.mod_lt _ (by norm_num)
      unfold EntityBlock.allocate
      dsimp only
      rw [if_pos (by simp)]
      simp [Nat.mod_eq_of_lt hlt]] at h
    simp only [Option.some.injEq] at h
    subst h
    dsimp only
    have hstart : ba.allocated % 65536 + 1024 ≤ 65536 := by
      obtain ⟨q, hq⟩ := (Nat.dvd_mod_iff (by norm_num : (1024 : Nat) ∣ 65536)).mpr hdvd
      have : ba.allocated % 65536 < 65536 := Nat.mod_lt _ (by norm_num)
      omega
    refine ⟨?_, ?_, Dvd.dvd.add hdvd dvd_rfl, hfree⟩
    · intro f hf
      unfold EntityAllocator.isAlive at hf ⊢
      dsimp only at hf
      rw [aliveFromBlocks_append] at hf
      rcases hold : aliveFromBlocks a.blocks f with _ | r0 <;> rw [hold] at hf
      · right
        unfold aliveFromBlocks EntityBlock.isAlive at hf
        dsimp only at hf
        by_cases hsf : ba.allocated % 65536 ≤ f.index
        · rw [if_pos hsf] at hf
          rcases hg : [1].get? (f.index - ba.allocated % 65536) with _ | v
          · rw [hg] at hf
            simp [aliveFromBlocks] at hf
          · rw [hg] at hf
            have hidx : f.index - ba.allocated % 65536 = 0 := by
              by_contra hc
              rw [List.get?_eq_getElem?, List.getElem?_eq_none
                (by simp; omega)] at hg
              exact Option.noConfusion hg
            rw [hidx] at hg
            simp only [List.get?] at hg
            injection hg with hg
            subst hg
            simp only [Option.map_some', Option.getD_some, beq_iff_eq] at hf
            cases f
            simp only [Entity.mk.injEq]
            dsimp only at hsf hidx hf
            exact ⟨by omega, hf.symm⟩
        · rw [if_neg hsf] at hf
          simp [aliveFromBlocks] at hf
      · exact Or.inl hf
    · intro x hx
      rcases List.mem_append.mp hx with hx1 | hx1
      · exact hsane x hx1
      · rw [List.mem_singleton.mp hx1]
        exact ⟨by norm_num, hstart⟩
  · simp only [Option.some.injEq] at h
    subst h
    dsimp only
    obtain ⟨hstep, hsane2⟩ := allocFromBlocks_alive a.blocks p.1 p.2 ha hsane
    exact ⟨fun f hf => hstep f hf, hsane2, hdvd, hfree⟩

/-- The chunk-filling write: the produced chunk's entity column is the old
one extended by the created entities in order, and each handle alive
afterwards was alive before or is among them; allocator sanity is
threaded. -/
theorem writeRows_effect (ctypes : List Nat) :
    ∀ (rows : List (List Nat)) (chunk : Chunk) (alloc : EntityAllocator)
      (ba : BlockAllocator) r,
      writeRows chunk ctypes rows alloc ba = some r →
      BlocksSane alloc.blocks → 1024 ∣ ba.allocated → ba.free = [] →
      r.1.entities = chunk.entities ++ r.2.1 ∧
        (∀ f, r.2.2.2.1.isAlive f = true → alloc.isAlive f = true ∨ f ∈ r.2.1) ∧
        BlocksSane r.2.2.2.1.blocks ∧ 1024 ∣ r.2.2.2.2.allocated ∧ r.2.2.2.2.free = [] := by
  intro rows
  induction rows with
  | nil =>
    intro chunk alloc ba r h hs hd hfr
    unfold writeRows at h
    simp only [Option.some.injEq] at h
    subst h
    exact ⟨by simp, fun f hf2 => Or.inl hf2, hs, hd, hfr⟩
  | cons row rest ih =>
    intro chunk alloc ba r h hs hd hfr
    unfold writeRows at h
    by_cases hfull : chunk.isFull = true
    · rw [if_pos hfull] at h
      simp only [Option.some.injEq] at h
      subst h
      exact ⟨by simp, fun f hf2 => Or.inl hf2, hs, hd, hfr⟩
    · rw [if_neg hfull] at h
      rcases hc : alloc.createEntity ba with _ | ⟨e0, a0, ba0⟩ <;> rw [hc] at h
      · exact Option.noConfusion h
      · obtain ⟨hstep, hs2, hd2, hfr2⟩ := createEntity_alive alloc ba (e0, a0, ba0) hc hs hd hfr
        dsimp only at h hstep hs2 hd2 hfr2
        rcases hw : writeRows (chunk.appendRow e0 ctypes row) ctypes rest a0 ba0
          with _ | r2 <;> rw [hw] at h
        · exact Option.noConfusion h
        · simp only [Option.map_some', Option.some.injEq] at h
          subst h
          obtain ⟨he, hstep2, hs3, hd3, hfr3⟩ := ih _ _ _ r2 hw hs2 hd2 hfr2
          refine ⟨?_, ?_, hs3, hd3, hfr3⟩
          · dsimp only
            rw [he]
            unfold Chunk.appendRow
            dsimp only
            rw [List.append_assoc]
            rfl
          · intro f hff
            rcases hstep2 f hff with h1 | h1
            · rcases hstep f h1 with h2 | h2
              · exact Or.inl h2
              · exact Or.inr (h2 ▸ List.mem_cons_self e0 r2.2.1)
            · exact Or.inr (List.mem_cons_of_mem e0 h1)

/-- The index recording of an insert round: a lookup in the extended map is
either an untouched old entry of an entity not being appended, or the
location of the idx-th appended entity. -/
theorem recordLocations_lookup (archId cid : Nat) :
    ∀ (es : List Entity) (slot : Nat) (emap : List (Entity × (Nat × Nat × Nat)))
      (f : Entity) (loc : Nat × Nat × Nat),
      mapLookup (recordLocations archId cid slot es emap) f = some loc →
      (mapLookup emap f = some loc ∧ ¬ f ∈ es) ∨
        ∃ idx, idx < es.length ∧ es[idx]? = some f ∧ loc = (archId, cid, slot + idx) := by
  intro es
  induction es with
  | nil =>
    intro slot emap f loc h
    exact Or.inl ⟨h, by simp⟩
  | cons e es ih =>
    intro slot emap f loc h
    unfold recordLocations at h
    rcases ih (slot + 1) ((e, (archId, cid, slot)) :: emap) f loc h with
      ⟨h1, h2⟩ | ⟨idx, h1, h2, h3⟩
    · rw [mapLookup_cons] at h1
      by_cases hef : e = f
      · rw [if_pos hef] at h1
        injection h1 with h1
        exact Or.inr ⟨0, by simp, by simp [hef], by simp [← h1]⟩
      · rw [if_neg hef] at h1
        refine Or.inl ⟨h1, ?_⟩
        simp only [List.mem_cons, not_or]
        exact ⟨fun hx => hef hx.symm, h2⟩
    · refine Or.inr ⟨idx + 1, by simpa using h1, by simpa using h2, ?_⟩
      rw [h3]
      simp only [Prod.mk.injEq, true_and]
      omega

/-- One archetype extends another when every recorded chunk slot still holds
the same entity. -/
def ArchExtends (a a2 : Archetype) : Prop :=
  ∀ (ci s : Nat) (x : Entity) (c : Chunk), a.chunks[ci]? = some c →
    c.entities[s]? = some x → ∃ c2, a2.chunks[ci]? = some c2 ∧ c2.entities[s]? = some x

theorem getOrCreateChunk_preserves (a : Archetype) (svals : List (Nat × Nat))
    (ctypes : List Nat) (ci : Nat) (c : Chunk) (h : a.chunks[ci]? = some c) :
    (a.getOrCreateChunk svals ctypes).2.chunks[ci]? = some c := by
  unfold Archetype.getOrCreateChunk
  rcases hf : a.chunks.findIdx? (fun c => !c.isFull && sharedValsMatch c svals) with _ | i <;>
    rw [hf]
  · dsimp only
    rw [List.getElem?_append_left (lt_of_getElem?_eq_some h)]
    exact h
  · exact h

theorem entityAtIn_extend (ctx : List Archetype) (archId : Nat)
    (harchId : archId < ctx.length) (a a2 : Archetype) (hext : ArchExtends a a2)
    (loc : Nat × Nat × Nat) (f : Entity)
    (h : entityAtIn (ctx.set archId a) loc = some f) :
    entityAtIn (ctx.set archId a2) loc = some f := by
  unfold entityAtIn at h ⊢
  by_cases hL : loc.1 = archId
  · rw [hL, List.getElem?_set_self harchId, Option.some_bind] at h ⊢
    rcases h2 : a.chunks[loc.2.1]? with _ | c <;> rw [h2] at h
    · exact Option.noConfusion h
    · rw [Option.some_bind] at h
      obtain ⟨c2, hc2, hx2⟩ := hext loc.2.1 loc.2.2 f c h2 h
      rw [hc2, Option.some_bind]
      exact hx2
  · rw [List.getElem?_set_ne (fun hx => hL hx.symm)] at h ⊢
    exact h

theorem entityAtIn_append (archetypes extra : List Archetype) (loc : Nat × Nat × Nat)
    (f : Entity) (h : entityAtIn archetypes loc = some f) :
    entityAtIn (archetypes ++ extra) loc = some f := by
  unfold entityAtIn at h ⊢
  rcases h1 : archetypes[loc.1]? with _ | a <;> rw [h1] at h
  · exact Option.noConfusion h
  · rw [List.getElem?_append_left (lt_of_getElem?_eq_some h1), h1]
    exact h

/-- The invariant of the insert loop: if every alive mapped entity sits at
its recorded slot with the current archetype substituted in, the same holds
after the loop for the final archetype, allocator and index. -/
theorem insertLoop_preserves (ctx : List Archetype) (archId : Nat)
    (harchId : archId < ctx.length) (svals : List (Nat × Nat)) (ctypes : List Nat) :
    ∀ (fuel : Nat) (rows : List (List Nat)) (arch : Archetype)
      (alloc : EntityAllocator) (ba : BlockAllocator)
      (emap : List (Entity × (Nat × Nat × Nat))) r,
      insertLoop fuel arch archId svals ctypes rows alloc ba emap = some r →
      BlocksSane alloc.blocks → 1024 ∣ ba.allocated → ba.free = [] →
      (∀ f loc, alloc.isAlive f = true → mapLookup emap f = some loc →
        entityAtIn (ctx.set archId arch) loc = some f) →
      ∀ f loc, r.2.1.isAlive f = true → mapLookup r.2.2.2 f = some loc →
        entityAtIn (ctx.set archId r.1) loc = some f := by
  intro fuel
  induction fuel with
  | zero =>
    intro rows arch alloc ba emap r h hs hd hfr hP
    cases rows with
    | nil =>
      unfold insertLoop at h
      simp only [Option.some.injEq] at h
      subst h
      exact hP
    | cons row rest => exact absurd h (by simp [insertLoop])
  | succ fuel ih =>
    intro rows arch alloc ba emap r h hs hd hfr hP
    cases rows with
    | nil =>
      unfold insertLoop at h
      simp only [Option.some.injEq] at h
      subst h
      exact hP
    | cons row rest =>
      unfold insertLoop at h
      rcases hch : (arch.getOrCreateChunk svals ctypes).2.chunks[(arch.getOrCreateChunk
          svals ctypes).1]? with _ | chunk <;> rw [hch] at h
      · exact Option.noConfusion h
      · dsimp only at h
        rcases hwr : writeRows chunk ctypes (row :: rest) alloc ba with _ |
          ⟨chunk2, es, rem, alloc2, ba2⟩ <;> rw [hwr] at h
        · exact Option.noConfusion h
        · dsimp only at h
          obtain ⟨hent, hstep, hs2, hd2, hfr2⟩ :=
            writeRows_effect ctypes (row :: rest) chunk alloc ba
              (chunk2, es, rem, alloc2, ba2) hwr hs hd hfr
          dsimp only at hent hstep hs2 hd2 hfr2
          have hext : ArchExtends arch
              { (arch.getOrCreateChunk svals ctypes).2 with
                chunks := (arch.getOrCreateChunk svals ctypes).2.chunks.set
                  (arch.getOrCreateChunk svals ctypes).1 chunk2 } := by
            intro ci s x c hc hx
            have hc2 := getOrCreateChunk_preserves arch svals ctypes ci c hc
            by_cases hci : ci = (arch.getOrCreateChunk svals ctypes).1
            · subst hci
              rw [hc2] at hch
              injection hch with hch
              refine ⟨chunk2, ?_, ?_⟩
              · dsimp only
                exact List.getElem?_set_self (lt_of_getElem?_eq_some hc2)
              · rw [hent, ← hch, List.getElem?_append_left (lt_of_getElem?_eq_some hx)]
                exact hx
            · refine ⟨c, ?_, hx⟩
              dsimp only
              rw [List.getElem?_set_ne (fun hy => hci hy.symm)]
              exact hc2
          refine ih rem _ alloc2 ba2 _ r h hs2 hd2 hfr2 ?_
          intro f loc hf hl
          rcases recordLocations_lookup archId (arch.getOrCreateChunk svals ctypes).1
              es chunk.entities.length emap f loc hl with ⟨h1, h2⟩ | ⟨idx, h1, h2, h3⟩
          · rcases hstep f hf with h4 | h4
            · exact entityAtIn_extend ctx archId harchId arch _ hext loc f (hP f loc h4 h1)
            · exact absurd h4 h2
          · subst h3
            unfold entityAtIn
            dsimp only
            rw [List.getElem?_set_self harchId, Option.some_bind,
              List.getElem?_set_self (lt_of_getElem?_eq_some hch), Option.some_bind,
              hent, List.getElem?_append_right (Nat.le_add_right _ _),
              Nat.add_sub_cancel_left]
            exact h2

/-- World::insert preserves location consistency, given the structural
sanity of the allocator state (true of every state the system reaches):
initialised blocks fit the u16 space and the shared allocator has leased no
block back. -/
theorem insert_preserves_location (w : World) (svals : List (Nat × Nat))
    (ctypes : List Nat) (rows : List (List Nat)) (r : List Entity × World)
    (hinv : LocationConsistent w) (hsane : BlocksSane w.allocator.blocks)
    (hdvd : 1024 ∣ w.blockAlloc.allocated) (hfree : w.blockAlloc.free = [])
    (h : w.insert svals ctypes rows = some r) : LocationConsistent r.2 := by
  unfold World.insert at h
  dsimp only at h
  rcases hf : findArchetype w.archetypes 0 (fun a =>
      typeSetMatch a.componentTypes ctypes && typeSetMatch a.sharedTypes (svals.map Prod.fst))
    with _ | p <;> rw [hf] at h <;> dsimp only at h
  · rcases hloop : insertLoop rows.length (⟨ctypes, svals.map Prod.fst, []⟩ : Archetype)
        w.archetypes.length svals ctypes rows
        { blocks := w.allocator.blocks, entityBuffer := [] } w.blockAlloc w.entityMap
      with _ | q <;> rw [hloop] at h
    · exact Option.noConfusion h
    · simp only [Option.map_some', Option.some.injEq] at h
      subst h
      have hset : (w.archetypes ++
            [(⟨ctypes, svals.map Prod.fst, []⟩ : Archetype)]).set w.archetypes.length
            ⟨ctypes, svals.map Prod.fst, []⟩ =
          w.archetypes ++ [(⟨ctypes, svals.map Prod.fst, []⟩ : Archetype)] := by
        apply List.ext_getElem?
        intro n
        by_cases hn : n = w.archetypes.length
        · subst hn
          rw [List.getElem?_set_self (by simp)]
          rw [List.getElem?_append_right (le_refl _)]
          simp
        · rw [List.getElem?_set_ne (fun hx => hn hx.symm)]
      have hcons := insertLoop_preserves
        (w.archetypes ++ [(⟨ctypes, svals.map Prod.fst, []⟩ : Archetype)])
        w.archetypes.length (by simp) svals ctypes rows.length rows
        ⟨ctypes, svals.map Prod.fst, []⟩
        { blocks := w.allocator.blocks, entityBuffer := [] } w.blockAlloc w.entityMap q
        hloop hsane hdvd hfree
        (by
          intro f loc hx hy
          rw [hset]
          exact entityAtIn_append w.archetypes _ loc f (hinv f loc hx hy))
      intro f loc hx hy
      exact hcons f loc hx hy
  · rcases hloop : insertLoop rows.length p.2 p.1 svals ctypes rows
        { blocks := w.allocator.blocks, entityBuffer := [] } w.blockAlloc w.entityMap
      with _ | q <;> rw [hloop] at h
    · exact Option.noConfusion h
    · simp only [Option.map_some', Option.some.injEq] at h
      subst h
      obtain ⟨-, hlt, hget, -⟩ := findArchetype_spec _ w.archetypes 0 p.1 p.2 hf
      simp only [Nat.sub_zero] at hlt hget
      have hset : w.archetypes.set p.1 p.2 = w.archetypes := by
        apply List.ext_getElem?
        intro n
        by_cases hn : n = p.1
        · subst hn
          rw [List.getElem?_set_self hlt]
          exact hget.symm
        · rw [List.getElem?_set_ne (fun hx => hn hx.symm)]
      have hcons := insertLoop_preserves w.archetypes p.1 hlt svals ctypes rows.length
        rows p.2 { blocks := w.allocator.blocks, entityBuffer := [] } w.blockAlloc
        w.entityMap q hloop hsane hdvd hfree
        (by
          intro f loc hx hy
          rw [hset]
          exact hinv f loc hx hy)
      intro f loc hx hy
      exact hcons f loc hx hy

/-- The C1 claim as stated: location consistency is preserved by every
World::insert and every World::delete, unconditionally. -/
def LocationInvariantClaim : Prop :=
  (∀ (w : World) (svals : List (Nat × Nat)) (ctypes : List Nat)
      (rows : List (List Nat)) (r : List Entity × World),
    LocationConsistent w → w.insert svals ctypes rows = some r →
      LocationConsistent r.2) ∧
  (∀ (w : World) (e : Entity),
    LocationConsistent w → LocationConsistent (w.delete e).2)

/-- Executable check of location consistency over the listed index entries
(a lookup can only return a listed key's value). -/
def locationCheck (w : World) : Bool :=
  w.entityMap.all (fun p =>
    !(w.isAlive p.1) ||
      match mapLookup w.entityMap p.1 with
      | none => true
      | some l => entityAt w l == some p.1)

theorem locationConsistent_of_check (w : World) (h : locationCheck w = true) :
    LocationConsistent w := by
  intro f loc ha hl
  have hfind : ∃ p, w.entityMap.find? (fun q => q.1 == f) = some p := by
    unfold mapLookup at hl
    rcases hq : w.entityMap.find? (fun q => q.1 == f) with _ | p
    · rw [hq] at hl
      exact Option.noConfusion hl
    · exact ⟨p, hq⟩
  obtain ⟨p, hp⟩ := hfind
  have hpmem := List.mem_of_find?_eq_some hp
  have hpkey : p.1 = f := by simpa using List.find?_some hp
  have hall := (List.all_eq_true.mp h) p hpmem
  rw [hpkey] at hall
  simp only [ha, hl, Bool.not_true, Bool.false_or, beq_iff_eq] at hall
  exact hall

/-- A consistent world whose allocator block retains a freed slot (index 0,
stored version 0) while the stale index entry for handle (0,1) survives:
the entity column holds (1,1) at the recorded slot and (0,1) is dead. -/
def c1World : World :=
  ⟨⟨[⟨0, 1024, [0, 1], []⟩], []⟩, ⟨1024, []⟩,
   [⟨[0], [], [⟨[⟨1, 1⟩], [(0, [42])], [], 1024⟩]⟩],
   [(⟨0, 1⟩, (0, 0, 0)), (⟨1, 1⟩, (0, 0, 0))]⟩

/-- C1 counterexample: deletion does not preserve location consistency in
general.  Deleting the dead handle (0,5) in c1World returns false yet bumps
the stored version of index 0 from 0 to 1 (EntityBlock::free frees on any
covered index), which makes the stale-mapped handle (0,1) alive; its index
entry still points at slot 0, now occupied by (1,1). -/
theorem location_invariant_not_preserved : ¬ LocationInvariantClaim := by
  intro hclaim
  have hinv : LocationConsistent c1World :=
    locationConsistent_of_check c1World (by decide)
  have h3 := hclaim.2 c1World ⟨0, 5⟩ hinv ⟨0, 1⟩ (0, 0, 0) (by decide) (by decide)
  exact absurd h3 (by decide)

/-- C1 (amended): location consistency is preserved by World::insert under
the structural sanity every reachable allocator state enjoys (initialised
blocks fit the u16 index space, the shared allocator is 1024-aligned with an
empty lease-back list), and by World::delete whenever the one handle the
delete could resurrect --- the deleted index carrying the bumped stored
version --- has no index entry.  The unconditional statement is refuted by
location_invariant_not_preserved. -/
theorem location_consistency_amended (w : World) (e : Entity)
    (svals : List (Nat × Nat)) (ctypes : List Nat) (rows : List (List Nat))
    (r : List Entity × World) (hinv : LocationConsistent w)
    (hsane : BlocksSane w.allocator.blocks) (hdvd : 1024 ∣ w.blockAlloc.allocated)
    (hfree : w.blockAlloc.free = [])
    (hres : mapLookup w.entityMap (resurrectTarget w e) = none)
    (h : w.insert svals ctypes rows = some r) :
    LocationConsistent r.2 ∧ LocationConsistent (w.delete e).2 :=
  ⟨insert_preserves_location w svals ctypes rows r hinv hsane hdvd hfree h,
   delete_preserves_location w e hinv hres⟩

/-- The world produced by inserting one Pos(7) row under Model(1) into a
fresh world. -/
def c1InsertedWorld : World :=
  ⟨⟨[⟨0, 1024, [1], []⟩], [⟨0, 1⟩]⟩, ⟨1024, []⟩,
   [⟨[0], [10], [⟨[⟨0, 1⟩], [(0, [7])], [(10, 1)], 1024⟩]⟩],
   [(⟨0, 1⟩, (0, 0, 0))]⟩

/-- Witness for the amended location-consistency theorem: one insert into a
fresh world and one delete on the fresh world, all hypotheses discharged
concretely. -/
theorem location_consistency_amended_witness :
    LocationConsistent c1InsertedWorld ∧
      LocationConsistent (newWorld.delete ⟨0, 1⟩).2 :=
  location_consistency_amended newWorld ⟨0, 1⟩ [(10, 1)] [0] [[7]]
    ([⟨0, 1⟩], c1InsertedWorld) (locationConsistent_of_check newWorld (by decide))
    (fun b hb => absurd hb (List.not_mem_nil b)) (dvd_zero 1024) rfl rfl (by decide)

end Hydro
